import Mathlib

/-!
Shallow embedding of the link-grammar tokenizer (src/link-grammar/tokenize.c)
and proofs about its specification claims.

Strings are modelled as lists of code points (`List Char`); the external
collaborators (dictionary, regex engine, spell checker, locale classifiers,
affix tables) are fields of a context structure `Ctx`, mirroring the
"external interfaces" section of the spec.  All tokenizer logic is translated
from tokenize.c; the few constants that live in headers outside src/ are
marked "Modelled from the spec".
-/

set_option autoImplicit false

namespace LGTok

/-- MAX_STRIP, tokenize.c line 35: the bound on right-strip iterations. -/
def MAX_STRIP : Nat := 10

/-- HEB_PRENUM_MAX, tokenize.c line 602: at most 5 multi-prefix subwords. -/
def HEB_PRENUM_MAX : Nat := 5

/-- MAX_NUM_SPELL_GUESSES, tokenize.c line 778. -/
def MAX_NUM_SPELL_GUESSES : Nat := 60

/-- Modelled from the spec: MAX_WORD, the per-token truncation limit.  The
constant is defined in a header of this repository that is not under src/;
the spec lists it among the limits ("MAX_WORD per token (truncate)").  Its
exact value is irrelevant to every claim below; only that it is reasonably
large matters. -/
def MAX_WORD : Nat := 180

/-- Modelled from the spec: the distinguished non-empty empty-word marker
(EMPTY_WORD_MARK), "a fixed non-empty symbol" used for balancing; its
concrete spelling lives outside src/. -/
def EMPTY_WORD_MARK : List Char := "=.zzz".toList

/-- Modelled from the spec: the left-wall marker string (configured by the
dictionary, outside src/). -/
def LEFT_WALL_WORD : List Char := "LEFT-WALL".toList

/-- Modelled from the spec: the right-wall marker string. -/
def RIGHT_WALL_WORD : List Char := "RIGHT-WALL".toList

/-- The NUL code point (a disabled infix mark is the NUL byte). -/
def nulChar : Char := Char.ofNat 0

/-- U+00A0 NO-BREAK SPACE, special-cased by is_space and is_number. -/
def nbspChar : Char := Char.ofNat 0xa0

/-- In-place update of one list element, as C's `arr[n] = f(arr[n])`.
Out-of-range indices leave the list unchanged. -/
def updAt {α : Type} (f : α → α) : Nat → List α → List α
  | _, [] => []
  | 0, a :: as => f a :: as
  | n+1, a :: as => a :: updAt f n as

/-- The external collaborators and affix tables consumed by the tokenizer
(spec section 6), plus the parse options and debug toggles it reads.  All
string-valued tables are lists of code-point lists. -/
structure Ctx where
  /-- boolean_dictionary_lookup: literal, case-sensitive lookup. -/
  dict_lookup : List Char → Bool
  /-- find_word_in_dict: literal OR regex lookup. -/
  in_dict : List Char → Bool
  /-- match_regex: name of the first matching regex, if any. -/
  regex_match : List Char → Option (List Char)
  /-- AFDICT_LPUNC strings. -/
  lpunc : List (List Char)
  /-- AFDICT_RPUNC strings. -/
  rpunc : List (List Char)
  /-- AFDICT_UNITS strings. -/
  units : List (List Char)
  /-- AFDICT_SUF strings. -/
  suf : List (List Char)
  /-- AFDICT_PRE strings. -/
  pre : List (List Char)
  /-- AFDICT_MPRE strings (reverse-sorted by length). -/
  mpre : List (List Char)
  /-- AFDICT_STEMSUBSCR strings. -/
  stemsubscr : List (List Char)
  /-- AFDICT_QUOTES, a string of quote code points. -/
  quotes : List Char
  /-- AFDICT_BULLETS, a string of bullet code points. -/
  bullets : List Char
  /-- INFIX_MARK, the single affix-marking byte from the affix table. -/
  imark : Char
  left_wall_defined : Bool
  right_wall_defined : Bool
  /-- Whether dict->spell_checker is non-null. -/
  spell_checker : Bool
  /-- spellcheck_test. -/
  spell_test : List Char → Bool
  /-- spellcheck_suggest: the suggestion list returned by the oracle. -/
  spell_suggest : List Char → List (List Char)
  /-- Locale classifier iswspace. -/
  iswspace : Char → Bool
  /-- Locale classifier iswdigit. -/
  iswdigit : Char → Bool
  /-- Locale classifier iswupper. -/
  iswupper : Char → Bool
  /-- Locale classifier iswalpha. -/
  iswalpha : Char → Bool
  /-- Locale case mapping towlower (used by downcase_utf8_str). -/
  towlower : Char → Char
  /-- test_enabled("no-suffixes"). -/
  test_no_suffixes : Bool
  /-- test_enabled("parallel-regex"). -/
  test_parallel_regex : Bool
  /-- test_enabled("parallels-regex"). -/
  test_parallels_regex : Bool
  /-- opts->use_spell_guess. -/
  use_spell_guess : Bool

/-- is_utf8_upper: first code point is upper-case. -/
def is_utf8_upper (ctx : Ctx) : List Char → Bool
  | [] => false
  | c :: _ => ctx.iswupper c

/-- is_utf8_alpha: first code point is alphabetic. -/
def is_utf8_alpha (ctx : Ctx) : List Char → Bool
  | [] => false
  | c :: _ => ctx.iswalpha c

/-- is_utf8_digit: first code point is a digit. -/
def is_utf8_digit (ctx : Ctx) : List Char → Bool
  | [] => false
  | c :: _ => ctx.iswdigit c

/-- is_space, tokenize.c line 131: iswspace plus U+00A0. -/
def is_space (ctx : Ctx) (c : Char) : Bool :=
  ctx.iswspace c || c == nbspChar

/-- is_quote, tokenize.c line 94: membership in the QUOTES affix string
(a missing table behaves as the empty string). -/
def is_quote (ctx : Ctx) (c : Char) : Bool :=
  ctx.quotes.contains c

/-- is_bullet, tokenize.c line 108. -/
def is_bullet (ctx : Ctx) (c : Char) : Bool :=
  ctx.bullets.contains c

/-- is_bullet_str, tokenize.c line 117: classify the first code point. -/
def is_bullet_str (ctx : Ctx) : List Char → Bool
  | [] => false
  | c :: _ => is_bullet ctx c

/-- is_number, tokenize.c line 160: begins with a digit and consists of
digits, U+00A0, '.', ',' and ':' only. -/
def is_number (ctx : Ctx) (s : List Char) : Bool :=
  is_utf8_digit ctx s &&
    s.all (fun c => ctx.iswdigit c || c == nbspChar || c == '.' || c == ',' || c == ':')

/-- downcase_utf8_str: lower-case each code point, bounded by MAX_WORD. -/
def downcase (ctx : Ctx) (s : List Char) : List Char :=
  (s.map ctx.towlower).take MAX_WORD

/-- One word slot of the sentence lattice (struct Word, restricted to the
fields the tokenizer writes). -/
structure Word where
  alternatives : List (List Char)
  unsplit_word : Option (List Char)
  firstupper : Bool
deriving Repr, DecidableEq

/-- The sentence under construction: the word-slot array, the post_quote
array (entries never written by a commit are `none`, mirroring the
uninitialized gaps left by realloc), the committed length, and the staging
window t_start/t_count. -/
structure Sentence where
  word : List Word
  post_quote : List (Option Bool)
  length : Nat
  t_start : Nat
  t_count : Nat
deriving Repr, DecidableEq

/-- The alternatives list of slot i (empty if the slot does not exist). -/
def getAlts (s : Sentence) (i : Nat) : List (List Char) :=
  ((s.word.get? i).map Word.alternatives).getD []

/-- Number of alternatives at slot i (altlen of word[i].alternatives). -/
def altcount (s : Sentence) (i : Nat) : Nat :=
  (getAlts s i).length

/-- The three component roles of add_alternative's affixlist. -/
inductive AffixType where
  | pfx
  | stem
  | sfx
deriving Repr, DecidableEq

/-- Formatting of one component into the buff written by add_alternative
(tokenize.c lines 323-357): a prefix is the (truncated) text followed by the
infix mark; a stem is the (truncated) text; a suffix is marked with a
leading infix mark unless it starts with a non-alphabetic code point, the
mark is NUL, or the "no-suffixes" debug toggle is on. -/
def format_affix (ctx : Ctx) : AffixType → List Char → List Char
  | .pfx, a => a.take MAX_WORD ++ [ctx.imark]
  | .stem, a => a.take MAX_WORD
  | .sfx, a =>
    if (!a.isEmpty && !is_utf8_alpha ctx a)
        || ctx.imark == nulChar || ctx.test_no_suffixes then
      a.take MAX_WORD
    else
      ctx.imark :: a.take (min (a.length + 1) MAX_WORD - 1)

/-- Append one alternative string to a word slot (altappend). -/
def appendAlt (a : List Char) (w : Word) : Word :=
  { w with alternatives := w.alternatives ++ [a] }

/-- The loop state of add_alternative: the word array, the staged count
t_count and the affix index ai. -/
structure AAState where
  word : List Word
  t_count : Nat
  ai : Nat
deriving Repr

/-- Alternatives of slot i in a raw word array. -/
def getAltsW (ws : List Word) (i : Nat) : List (List Char) :=
  ((ws.get? i).map Word.alternatives).getD []

/-- One iteration of add_alternative's component loop
(tokenize.c lines 271-362): create a new balanced slot when ai == t_count
(pre-filling it with numalt-1 empty-word markers), format the component,
propagate firstupper to slot t_start, and append the formatted component to
slot t_start+ai. -/
def add_one (ctx : Ctx) (t_start : Nat) (st : AAState) (c : AffixType × List Char) :
    AAState :=
  let st1 :=
    if st.ai = st.t_count then
      let pre :=
        if st.t_count + 1 > 1 then
          List.replicate ((getAltsW st.word t_start).length - 1) EMPTY_WORD_MARK
        else []
      { word := st.word ++ [⟨pre, none, false⟩], t_count := st.t_count + 1, ai := st.ai }
    else st
  let buff := format_affix ctx c.1 c.2
  let w2 :=
    if is_utf8_upper ctx buff then
      updAt (fun w => { w with firstupper := true }) t_start st1.word
    else st1.word
  { word := updAt (appendAlt buff) (t_start + st.ai) w2,
    t_count := st1.t_count, ai := st.ai + 1 }

/-- The component loop of add_alternative over all formatted components. -/
def add_loop (ctx : Ctx) (t_start : Nat) : List (AffixType × List Char) → AAState → AAState
  | [], st => st
  | c :: rest, st => add_loop ctx t_start rest (add_one ctx t_start st c)

/-- The trailing balancing loop of add_alternative (tokenize.c lines
366-370): append an empty-word marker to each of the `m` slots starting at
index i. -/
def balance_tail (i : Nat) : Nat → List Word → List Word
  | 0, ws => ws
  | m+1, ws => balance_tail (i+1) m (updAt (appendAlt EMPTY_WORD_MARK) i ws)

/-- The flattened component list (prefixes, then stems, then suffixes). -/
def mkComps (pfxs stems sfxs : List (List Char)) : List (AffixType × List Char) :=
  pfxs.map (fun a => (AffixType.pfx, a)) ++ stems.map (fun a => (AffixType.stem, a))
    ++ sfxs.map (fun a => (AffixType.sfx, a))

/-- add_alternative, tokenize.c lines 250-372.  Appends one decomposition to
the current token group, balancing with empty-word markers; an empty first
component aborts the call with no change. -/
def add_alternative (ctx : Ctx) (s : Sentence) (pfxs stems sfxs : List (List Char)) :
    Sentence :=
  match mkComps pfxs stems sfxs with
  | [] => { s with word := balance_tail s.t_start s.t_count s.word }
  | c :: rest =>
    if c.2.isEmpty then s
    else
      let st := add_loop ctx s.t_start (c :: rest) ⟨s.word, s.t_count, 0⟩
      { s with
        word := balance_tail (s.t_start + st.ai) (st.t_count - st.ai) st.word,
        t_count := st.t_count }

/-- Write post_quote[i] := b after growing the array to i+1 entries, as the
realloc in issue_alternatives does; entries in the gap stay unwritten. -/
def setPQ (l : List (Option Bool)) (i : Nat) (b : Bool) : List (Option Bool) :=
  updAt (fun _ => some b) i (l ++ List.replicate (i + 1 - l.length) none)

/-- issue_alternatives, tokenize.c lines 378-399: commit the staged token
group.  Returns false and changes nothing when t_count == 0; otherwise
records the raw word and quote flag on the group's first slot, advances
length, and resets the staging window. -/
def issue_alternatives (s : Sentence) (raw : List Char) (quote_found : Bool) :
    Bool × Sentence :=
  if s.t_count = 0 then (false, s)
  else
    (true,
      { word := updAt (fun w => { w with unsplit_word := some raw }) s.t_start s.word,
        post_quote := setPQ s.post_quote s.t_start quote_found,
        length := s.length + s.t_count,
        t_start := s.length + s.t_count,
        t_count := 0 })

/-- issue_sentence_word, tokenize.c lines 214-218: stage the string as a
single-stem decomposition and commit it at once. -/
def issue_sentence_word (ctx : Ctx) (s : Sentence) (t : List Char) (quote_found : Bool) :
    Sentence :=
  (issue_alternatives (add_alternative ctx s [] [t] []) t quote_found).2

/-- The stem||subscript candidate built by add_alternative_with_subscr
(tokenize.c lines 486-498): the truncated stem followed by the truncated
subscript. -/
def stem_candidate (wd ss : List Char) : List Char :=
  wd.take (min wd.length MAX_WORD) ++ ss.take (min ss.length (MAX_WORD - 1))

/-- add_alternative_with_subscr, tokenize.c lines 462-510.  With an empty
STEMSUBSCR class the triple is emitted directly (and counts as in-dict only
when the infix mark is not NUL); otherwise each stem||subscript candidate is
vetted with the literal dictionary lookup only ("We should not match
regexes to stems") and emitted on success.  A NULL suffix together with a
non-empty STEMSUBSCR class is undefined in the C code (the pointer would be
dereferenced); it is modelled as the empty string and is unreachable from
the call sites exercised here. -/
def add_alternative_with_subscr (ctx : Ctx) (s : Sentence)
    (pfo : Option (List Char)) (wd : List Char) (sfo : Option (List Char)) :
    Sentence × Bool :=
  if ctx.stemsubscr.length = 0 then
    (add_alternative ctx s pfo.toList [wd] sfo.toList, ctx.imark != nulChar)
  else
    ctx.stemsubscr.foldl
      (fun acc ss =>
        if ctx.dict_lookup (stem_candidate wd ss) then
          (add_alternative ctx acc.1 pfo.toList [stem_candidate wd ss] [sfo.getD []], true)
        else acc)
      (s, false)

/-- The PRE loop inside suffix_split (tokenize.c lines 582-596), run once
per suffix iteration with `len` the current suffix length (`len = 0` and a
NULL suffix on the final, no-suffix iteration).  The middle length
`(wend - len) - (w + strlen(pre))`, an int in C that can go negative on
pathological tables, is modelled with truncating Nat subtraction. -/
def pfx_loop (ctx : Ctx) (w : List Char) (len : Nat) (sfo : Option (List Char))
    (acc : Sentence × Bool) : Sentence × Bool :=
  ctx.pre.foldl
    (fun acc p =>
      if w.take p.length == p then
        let nw := (w.drop p.length).take (min (w.length - len - p.length) MAX_WORD)
        if ctx.dict_lookup nw then
          let r := add_alternative_with_subscr ctx acc.1 (some p) nw sfo
          (r.1, acc.2 || r.2)
        else acc
      else acc)
    acc

/-- One SUF iteration of suffix_split (tokenize.c lines 547-596): skip the
whole iteration when the word is shorter than the suffix; emit the
(stem, suffix) split when the suffix matches and the stem passes
find_word_in_dict; then run the PRE loop with this suffix. -/
def suffix_step (ctx : Ctx) (w : List Char) (acc : Sentence × Bool) (sfx : List Char) :
    Sentence × Bool :=
  if w.length < sfx.length then acc
  else
    let acc1 :=
      if w.drop (w.length - sfx.length) == sfx then
        let nw := (w.take (w.length - sfx.length)).take MAX_WORD
        if ctx.in_dict nw then
          let r := add_alternative_with_subscr ctx acc.1 none nw (some sfx)
          (r.1, acc.2 || r.2)
        else acc
      else acc
    pfx_loop ctx w sfx.length (some sfx) acc1

/-- suffix_split, tokenize.c lines 522-600: one pass per SUF entry followed
by a final no-suffix pass that tries prefixes alone. -/
def suffix_split (ctx : Ctx) (s : Sentence) (w : List Char) : Sentence × Bool :=
  pfx_loop ctx w 0 none (ctx.suf.foldl (suffix_step ctx w) (s, false))

/-- The Hebrew vav letter tested by HEB_CHAREQ (tokenize.c line 605). -/
def vavChar : Char := 'ו'

/-- HEB_CHAREQ(s, "ו"): the first two bytes of s are the vav letter; with
two-byte Hebrew code points this is "the first code point is vav". -/
def isVav : List Char → Bool
  | [] => false
  | c :: _ => c == vavChar

/-- State of the mprefix_split do-while loop. -/
structure MPState where
  sent : Sentence
  w : List Char
  pseen : List Bool
  stack : List (List Char)
  flag : Bool
deriving Repr

/-- Result of one inner scan of the MPRE list: either the do-while loop is
over (no subword matched, the vav check broke out, a whole-word prefix was
emitted, or the continuation test fails structurally), or a subword was
peeled and the loop may continue when `cont` holds. -/
inductive MPOut where
  | exit (st : MPState)
  | next (st : MPState) (cont : Bool)

/-- The body of a successful MPRE match (tokenize.c lines 707-727), after
the vav adjustment produced the residue `nw`; `sz` is `wlen - plen` of the
unadjusted residue. -/
def mp_body (ctx : Ctx) (st : MPState) (i : Nat) (p nw : List Char) : MPOut :=
  let pseen2 := updAt (fun _ => true) i st.pseen
  let stack2 := st.stack ++ [p]
  if st.w.length - p.length = 0 then
    MPOut.exit { st with
                 sent := add_alternative ctx st.sent stack2 [] [],
                 pseen := pseen2, stack := stack2, flag := true }
  else
    let sent2 := if ctx.in_dict nw then add_alternative ctx st.sent stack2 [nw] [] else st.sent
    let flag2 := st.flag || ctx.in_dict nw
    MPOut.next { sent := sent2, w := nw, pseen := pseen2, stack := stack2, flag := flag2 }
      (decide (p.length ≠ 0) && decide (stack2.length < HEB_PRENUM_MAX))

/-- The inner for-loop of mprefix_split over MPRE indices (tokenize.c lines
676-729), with `fuelI` bounding the remaining indices: skip already-seen
subwords and a non-initial vav subword before a vav; on a match run the
"non-vav before vav" adjustment (a non-vav subword before a single vav
breaks out of the whole loop; before a double vav one vav is stripped from
the residue — the byte test newword[3] != 0 holds exactly when the second
two-byte code point exists) and then the match body. -/
def mp_inner (ctx : Ctx) (st : MPState) : Nat → Nat → MPOut
  | 0, _ => MPOut.exit st
  | fuelI+1, i =>
    if i < ctx.mpre.length then
      let p := (ctx.mpre.get? i).getD []
      if (st.pseen.get? i).getD false then mp_inner ctx st fuelI (i+1)
      else if decide (0 < st.stack.length) && isVav p && isVav st.w then
        mp_inner ctx st fuelI (i+1)
      else if st.w.take p.length == p then
        let nw0 := st.w.drop p.length
        if !isVav p && isVav nw0 then
          if !isVav (nw0.drop 1) then MPOut.exit st
          else
            let nw := if 2 ≤ nw0.length then nw0.drop 1 else nw0
            mp_body ctx st i p nw
        else mp_body ctx st i p nw0
      else mp_inner ctx st fuelI (i+1)
    else MPOut.exit st

/-- The outer do-while loop of mprefix_split; each continuing pass has
peeled a fresh subword, so HEB_PRENUM_MAX+1 passes of fuel suffice. -/
def mp_loop (ctx : Ctx) : Nat → MPState → Sentence × Bool
  | 0, st => (st.sent, st.flag)
  | fuel+1, st =>
    match mp_inner ctx st ctx.mpre.length 0 with
    | MPOut.exit st' => (st'.sent, st'.flag)
    | MPOut.next st' cont =>
      if cont then mp_loop ctx fuel st' else (st'.sent, st'.flag)

/-- mprefix_split, tokenize.c lines 640-735. -/
def mpre_split (ctx : Ctx) (s : Sentence) (word : List Char) : Sentence × Bool :=
  if ctx.mpre.length = 0 then (s, false)
  else
    mp_loop ctx (HEB_PRENUM_MAX + 1)
      ⟨s, word, List.replicate ctx.mpre.length false, [], false⟩

/-- is_capitalizable, tokenize.c lines 746-775: first word after the wall,
word after ":" or "." or a bullet, or word after a quote mark. -/
def is_capitalizable (ctx : Ctx) (s : Sentence) (curr : Nat) : Bool :=
  let first_word := if ctx.left_wall_defined then 1 else 0
  if curr = first_word then true
  else if decide (0 < curr)
      && (let a0 := (getAlts s (curr - 1)).headD []
          a0 == (":".toList) || a0 == (".".toList) || is_bullet_str ctx a0) then
    true
  else decide (curr < s.length) && ((s.post_quote.get? curr).getD none).getD false

/-- The run-on / guess loop of guess_misspelled_word (tokenize.c lines
815-866): a suggestion containing a blank is emitted as one multi-slot
run-on decomposition; a single-word suggestion found literally in the
dictionary is emitted with a "[~]" tag; the loop stops once num_guesses
exceeds MAX_NUM_SPELL_GUESSES. -/
def gmw_loop (ctx : Ctx) : List (List Char) → Sentence → Nat → Sentence × Nat
  | [], s, n => (s, n)
  | a :: rest, s, n =>
    let step :=
      if a.contains ' ' then
        (add_alternative ctx s [] (a.splitOn ' ') [], n + 1)
      else if ctx.dict_lookup a then
        let tagged := (a.take (MAX_WORD - 3) ++ ("[~]".toList)).take (MAX_WORD - 1)
        (add_alternative ctx s [] [tagged] [], n + 1)
      else (s, n)
    if MAX_NUM_SPELL_GUESSES < step.2 then step
    else gmw_loop ctx rest step.1 step.2

/-- guess_misspelled_word, tokenize.c lines 779-875: refuse numbers and
words the spell-checker itself accepts; otherwise emit run-on and tagged
guesses from the oracle's suggestions and, if any guess was emitted, commit
the group against the original word. -/
def guess_misspelled_word (ctx : Ctx) (s : Sentence) (word : List Char)
    (quote_found : Bool) : Sentence × Bool :=
  if is_number ctx word then (s, false)
  else if ctx.spell_test word then (s, false)
  else
    let r := gmw_loop ctx (ctx.spell_suggest word) s 0
    if 0 < r.2 then ((issue_alternatives r.1 word quote_found).2, true)
    else (r.1, false)

/-- Scan the LPUNC table for an entry the word starts with
(tokenize.c lines 904-915). -/
def sl_scan (ws : List (List Char)) (w : List Char) : Option (List Char) :=
  match ws with
  | [] => none
  | t :: rest => if w.take t.length == t then some t else sl_scan rest w

/-- The do-while loop of strip_left: issue the matched punctuation as its
own committed word and rescan.  An empty LPUNC entry would loop forever in
the C code; the fuel (enough for the nonempty-entry case) keeps the model
total. -/
def sl_loop (ctx : Ctx) : Nat → Sentence → List Char → Bool → Sentence × List Char
  | 0, s, w, _ => (s, w)
  | fuel+1, s, w, qf =>
    match sl_scan ctx.lpunc w with
    | none => (s, w)
    | some t => sl_loop ctx fuel (issue_sentence_word ctx s t qf) (w.drop t.length) qf

/-- strip_left, tokenize.c lines 889-919. -/
def strip_left (ctx : Ctx) (s : Sentence) (w : List Char) (quote_found : Bool) :
    Sentence × List Char :=
  sl_loop ctx (w.length + 1) s w quote_found

/-- State of the strip_right loop: the working end and the committed end
(as remaining-word lengths), the committed strip count, the recorded pieces
in strip order (tagged true when stripped as a unit), the
previous-strip-was-a-unit flag and the dictionary-stop flag. -/
structure SRState where
  temp_wend : Nat
  wend : Nat
  n_committed : Nat
  pieces : List (Bool × List Char)
  prevUnit : Bool
  in_dict : Bool
deriving Repr, DecidableEq

/-- Suffix match against the working end, including the length guard
`(temp_wend - w) < len` (tokenize.c lines 1001-1003). -/
def suffixMatch (cur t : List Char) : Bool :=
  decide (t.length ≤ cur.length) && (cur.drop (cur.length - t.length) == t)

/-- First table entry that suffix-matches the working word. -/
def scanTab : List (List Char) → List Char → Option (List Char)
  | [], _ => none
  | t :: rest, cur => if suffixMatch cur t then some t else scanTab rest cur

/-- Outcome of the inner RPUNC+UNITS scan of strip_right. -/
inductive SRScan where
  | punct (t : List Char)
  | unit (t : List Char)
  | stop

/-- The inner entry scan of strip_right (tokenize.c lines 982-1022): RPUNC
entries first in table order; the UNITS zone is entered only when no RPUNC
entry matched, and it aborts the whole outer loop when the token does not
start with a digit or the previous strip was already a unit. -/
def sr_scan (ctx : Ctx) (cur : List Char) (starts_with_number prevUnit : Bool) : SRScan :=
  match scanTab ctx.rpunc cur with
  | some t => SRScan.punct t
  | none =>
    if ctx.units.length = 0 then SRScan.stop
    else if !starts_with_number then SRScan.stop
    else if prevUnit then SRScan.stop
    else
      match scanTab ctx.units cur with
      | some t => SRScan.unit t
      | none => SRScan.stop

/-- The outer loop of strip_right (tokenize.c lines 968-1023), at most
MAX_STRIP passes: stop on an empty residue or a find_word_in_dict hit; a
punctuation strip commits wend/n_r_stripped at their pre-strip values and
clears previous_is_unit; a unit strip only advances the working end and
sets previous_is_unit. -/
def sr_loop (ctx : Ctx) (w : List Char) (starts_with_number : Bool) :
    Nat → SRState → SRState
  | 0, st => st
  | fuel+1, st =>
    if st.temp_wend = 0 then st
    else if ctx.in_dict ((w.take st.temp_wend).take MAX_WORD) then
      { st with in_dict := true }
    else
      match sr_scan ctx (w.take st.temp_wend) starts_with_number st.prevUnit with
      | SRScan.stop => st
      | SRScan.punct t =>
        sr_loop ctx w starts_with_number fuel
          { temp_wend := st.temp_wend - t.length,
            wend := st.temp_wend,
            n_committed := st.pieces.length,
            pieces := st.pieces ++ [(false, t)],
            prevUnit := false,
            in_dict := st.in_dict }
      | SRScan.unit t =>
        sr_loop ctx w starts_with_number fuel
          { st with
            temp_wend := st.temp_wend - t.length,
            pieces := st.pieces ++ [(true, t)],
            prevUnit := true }

/-- Result of strip_right: the final end of the remaining word (as a length
into the input), the committed strip count, the recorded pieces in strip
order, and the dictionary-stop flag (which the caller overwrites). -/
structure SRRes where
  wend : Nat
  n_r_stripped : Nat
  r_stripped : List (Bool × List Char)
  in_dict : Bool
deriving Repr, DecidableEq

/-- strip_right, tokenize.c lines 940-1033, including the final roll-back
test `!previous_is_unit || starts_with_number`. -/
def strip_right (ctx : Ctx) (w : List Char) : SRRes :=
  let swn := is_utf8_digit ctx w
  let st := sr_loop ctx w swn MAX_STRIP ⟨w.length, w.length, 0, [], false, false⟩
  if !st.prevUnit || swn then ⟨st.temp_wend, st.pieces.length, st.pieces, st.in_dict⟩
  else ⟨st.wend, st.n_committed, st.pieces, st.in_dict⟩

/-- The core tail of separate_word (tokenize.c lines 1106-1256), entered
with the post-strip word range and strip count.  Mirrors, in order: the
literal dictionary recheck and as-is emission; suffix_split on the
(possibly downcased) word; mprefix_split; the MAX_STRIP overflow reset; the
capitalized-word additions; the regex fallback (with the parallels-regex
"[!]"-tagging variant); the spell guesser; and the commit (or unitary
issue) of the core word. -/
def separate_word_core (ctx : Ctx) (s1 : Sentence) (w1 : List Char) (wendLen : Nat)
    (n_r : Nat) (qf : Bool) : Sentence :=
  let word := (w1.take wendLen).take MAX_WORD
  let wdict1 := ctx.dict_lookup word
  let s2 := if wdict1 then add_alternative ctx s1 [] [word] [] else s1
  let r3 := suffix_split ctx s2 (w1.take wendLen)
  let cond1 := (is_capitalizable ctx r3.1 r3.1.length || qf) && is_utf8_upper ctx word
  let r4 := if cond1 then suffix_split ctx r3.1 (downcase ctx word) else (r3.1, false)
  let dc1 : List Char := if cond1 then downcase ctx word else []
  let r5 := mpre_split ctx r4.1 word
  let word_can_split := r3.2 || r4.2 || r5.2
  let wdict2 := if MAX_STRIP ≤ n_r then true else wdict1
  let ucr :=
    if is_utf8_upper ctx word then
      let s6a :=
        if !word_can_split && (ctx.regex_match word).isSome then
          add_alternative ctx r5.1 [] [word] []
        else r5.1
      if is_capitalizable ctx s6a s6a.length || qf then
        let dcb := downcase ctx word
        if ctx.dict_lookup dcb then (add_alternative ctx s6a [] [dcb] [], true, dcb)
        else (s6a, wdict2, dc1)
      else (s6a, wdict2, dc1)
    else (r5.1, wdict2, dc1)
  let s6 := ucr.1
  let wdict4 := ucr.2.1 || word_can_split
  let r7 :=
    if !wdict4 || ctx.test_parallel_regex then
      let wpr :=
        if ctx.test_parallels_regex then
          let base := if !ucr.2.2.isEmpty then ucr.2.2 else word
          (base.take (MAX_WORD - 3) ++ ("[!]".toList)).take (MAX_WORD - 1)
        else word
      if (ctx.regex_match wpr).isSome then (add_alternative ctx s6 [] [wpr] [], true)
      else (s6, wdict4)
    else (s6, wdict4)
  let r8 :=
    if !r7.2 && !is_utf8_upper ctx word && ctx.use_spell_guess && ctx.spell_checker then
      guess_misspelled_word ctx r7.1 word qf
    else (r7.1, false)
  let r9 := if r8.2 then (true, r8.1) else issue_alternatives r8.1 word qf
  if r9.1 then r9.2 else issue_sentence_word ctx r9.2 word qf

/-- The tail of separate_word: the core phase followed by the re-issue of
the right-stripped pieces in reverse strip order (tokenize.c lines
1257-1261), with the MAX_STRIP overflow discarding all pieces. -/
def separate_word_main (ctx : Ctx) (s1 : Sentence) (w1 : List Char) (wendLen : Nat)
    (n_r : Nat) (pieces : List (Bool × List Char)) (qf : Bool) : Sentence :=
  let n_r2 := if MAX_STRIP ≤ n_r then 0 else n_r
  ((pieces.take n_r2).reverse).foldl (fun acc t => issue_sentence_word ctx acc t.2 false)
    (separate_word_core ctx s1 w1 wendLen n_r qf)

/-- separate_word, tokenize.c lines 1052-1262: if the raw token is not
recognized by find_word_in_dict, strip left punctuation (returning early
when it consumes the whole token) and then right punctuation/units, and
hand the remainder to the main phase. -/
def separate_word (ctx : Ctx) (s : Sentence) (w0 : List Char) (quote_found : Bool) :
    Sentence :=
  if ctx.in_dict (w0.take MAX_WORD) then
    separate_word_main ctx s w0 w0.length 0 [] quote_found
  else
    let sl := strip_left ctx s w0 quote_found
    if sl.2.length = 0 then sl.1
    else
      let sr := strip_right ctx sl.2
      separate_word_main ctx sl.1 sl.2 sr.wend sr.n_r_stripped sr.r_stripped quote_found

/-- Separator test of the scanning loop: whitespace or a quote character
(quotes are treated just like blanks). -/
def sepChar (ctx : Ctx) (c : Char) : Bool :=
  is_space ctx c || is_quote ctx c

/-- The raw-token scanning loop of separate_sentence (tokenize.c lines
1286-1329): skip a maximal run of separators (remembering whether it
contained a quote), then take a maximal run of non-separators as the next
raw token.  UTF-8 decode failures are not modelled (the input is already a
list of code points); the fuel is sufficient since every pass consumes at
least one code point. -/
def ss_loop (ctx : Ctx) : Nat → Sentence → List Char → Sentence
  | 0, s, _ => s
  | fuel+1, s, input =>
    let qf := (input.takeWhile (sepChar ctx)).any (is_quote ctx)
    let rest := input.dropWhile (sepChar ctx)
    if rest.isEmpty then s
    else
      let wtoken := rest.takeWhile (fun c => !sepChar ctx c)
      let s' := separate_word ctx s wtoken qf
      let rest2 := rest.drop wtoken.length
      if rest2.isEmpty then s' else ss_loop ctx fuel s' rest2

/-- separate_sentence, tokenize.c lines 1270-1341 (without the UTF-8
failure path): issue the left wall if defined, scan all raw tokens, issue
the right wall if defined, and report success exactly when the final length
exceeds the left-wall count or a right wall is defined. -/
def separate_sentence (ctx : Ctx) (input : List Char) : Sentence × Bool :=
  let s0 : Sentence := ⟨[], [], 0, 0, 0⟩
  let s1 := if ctx.left_wall_defined then issue_sentence_word ctx s0 LEFT_WALL_WORD false
            else s0
  let s2 := ss_loop ctx (input.length + 1) s1 input
  let s3 := if ctx.right_wall_defined then issue_sentence_word ctx s2 RIGHT_WALL_WORD false
            else s2
  (s3, decide (s3.length > (if ctx.left_wall_defined then 1 else 0)) || ctx.right_wall_defined)

/-- One staged decomposition handed to add_alternative. -/
structure Decomp where
  pf : List (List Char)
  stm : List (List Char)
  sf : List (List Char)

/-- Stage a list of decompositions into the current token group. -/
def stageAll (ctx : Ctx) (ds : List Decomp) (s : Sentence) : Sentence :=
  ds.foldl (fun acc d => add_alternative ctx acc d.pf d.stm d.sf) s

/-- Stage-wellformedness: the word array covers exactly the committed plus
the staged slots. -/
def WFs (s : Sentence) : Prop := s.word.length = s.t_start + s.t_count

/-- All staged slots carry the same number of alternatives as the group's
first slot. -/
def StageBalanced (s : Sentence) : Prop :=
  ∀ j, j < s.t_count → altcount s (s.t_start + j) = altcount s s.t_start

/-- Loop invariant of add_alternative's component loop, relative to the
original word array `ws0`, the original staged count `tc0`, the window
start `t_start`, and the original alternative count `n` of the group's
first slot. -/
def AAInv (t_start tc0 n : Nat) (ws0 : List Word) (st : AAState) : Prop :=
  st.t_count = max tc0 st.ai ∧
  st.word.length = t_start + st.t_count ∧
  (∀ i, i < t_start → st.word.get? i = ws0.get? i) ∧
  (∀ j, j < st.ai → j < tc0 →
    ∃ a, getAltsW st.word (t_start + j) = getAltsW ws0 (t_start + j) ++ [a]) ∧
  (∀ j, tc0 ≤ j → j < st.ai →
    ∃ a, getAltsW st.word (t_start + j) = List.replicate n EMPTY_WORD_MARK ++ [a]) ∧
  (∀ j, st.ai ≤ j → getAltsW st.word (t_start + j) = getAltsW ws0 (t_start + j))

/-- Invariant between raw tokens: wellformed word array and the staging
window anchored at the committed length. -/
def InvS (s : Sentence) : Prop :=
  s.word.length = s.t_start + s.t_count ∧ s.t_start = s.length

/-- A sentence between commits: invariant plus an empty staging window. -/
def Committed (s : Sentence) : Prop := InvS s ∧ s.t_count = 0

/-- s2 extends s: the committed region of s is intact and the length never
shrinks. -/
def Extends (s s2 : Sentence) : Prop :=
  s.length ≤ s2.length ∧ ∀ i, i < s.length → s2.word.get? i = s.word.get? i

/-- A minimal concrete context for witnesses: empty affix tables, a
dictionary and regex oracle that reject everything, ASCII classifiers. -/
def exCtx : Ctx where
  dict_lookup := fun _ => false
  in_dict := fun _ => false
  regex_match := fun _ => none
  lpunc := []
  rpunc := []
  units := []
  suf := []
  pre := []
  mpre := []
  stemsubscr := []
  quotes := []
  bullets := []
  imark := '='
  left_wall_defined := false
  right_wall_defined := false
  spell_checker := false
  spell_test := fun _ => false
  spell_suggest := fun _ => []
  iswspace := fun c => c == ' '
  iswdigit := Char.isDigit
  iswupper := Char.isUpper
  iswalpha := Char.isAlpha
  towlower := Char.toLower
  test_no_suffixes := false
  test_parallel_regex := false
  test_parallels_regex := false
  use_spell_guess := false

/-- The empty sentence used by witnesses. -/
def exEmpty : Sentence := ⟨[], [], 0, 0, 0⟩

/-- A sentence with one staged (uncommitted) slot, used by witnesses. -/
def exStaged : Sentence := ⟨[⟨["w".toList], none, false⟩], [], 0, 0, 1⟩

/-- Two staged decompositions("ab" whole, and "a"+"b") for the balancing
witness. -/
def exDs : List Decomp := [⟨[], ["ab".toList], []⟩, ⟨[], ["a".toList], ["b".toList]⟩]

/-- A context whose spell oracle returns 62 single-letter suggestions that
are all in the dictionary, for the C7 counterexample. -/
def exCtx7 : Ctx :=
  { exCtx with
    dict_lookup := fun _ => true
    spell_checker := true
    use_spell_guess := true
    spell_suggest := fun _ => (List.range 62).map (fun i => [Char.ofNat (65 + i)]) }

/-- A context with "." right-strippable and everything else rejecting, for
the C3 counterexample (a token ending in 11 periods). -/
def exCtx3 : Ctx := { exCtx with rpunc := [".".toList] }

/-- Context for the C6 witness: a comma in RPUNC. -/
def exCtx6 : Ctx := { exCtx with rpunc := [",".toList] }

/-- Context for the C10 witness: a double quote in QUOTES. -/
def exCtx10 : Ctx := { exCtx with quotes := ['"'] }

/-!  Basic lemmas about `updAt` and slot access. -/

theorem updAt_length {α : Type} (f : α → α) (i : Nat) (l : List α) :
    (updAt f i l).length = l.length := by
  induction l generalizing i with
  | nil => cases i <;> rfl
  | cons a as ih =>
    cases i with
    | zero => rfl
    | succ n => simpa [updAt] using ih n

theorem get?_updAt_ne {α : Type} (f : α → α) {i j : Nat} (l : List α) (h : i ≠ j) :
    (updAt f i l).get? j = l.get? j := by
  induction l generalizing i j with
  | nil => cases i <;> rfl
  | cons a as ih =>
    cases i with
    | zero =>
      cases j with
      | zero => exact absurd rfl h
      | succ m => rfl
    | succ n =>
      cases j with
      | zero => rfl
      | succ m =>
        simp only [updAt, List.get?]
        exact ih (fun hc => h (by omega))

theorem get?_updAt_self {α : Type} (f : α → α) (i : Nat) (l : List α) :
    (updAt f i l).get? i = (l.get? i).map f := by
  induction l generalizing i with
  | nil => cases i <;> rfl
  | cons a as ih =>
    cases i with
    | zero => rfl
    | succ n => simpa [updAt] using ih n

theorem updAt_append_left {α : Type} (f : α → α) {i : Nat} {l : List α} (m : List α)
    (h : i < l.length) : updAt f i (l ++ m) = updAt f i l ++ m := by
  induction l generalizing i with
  | nil => simp at h
  | cons a as ih =>
    cases i with
    | zero => rfl
    | succ n =>
      simp only [List.cons_append, updAt, List.cons.injEq, true_and]
      exact ih (by simpa using h)

theorem updAt_append_length {α : Type} (f : α → α) (l : List α) (x : α) :
    updAt f l.length (l ++ [x]) = l ++ [f x] := by
  induction l with
  | nil => rfl
  | cons a as ih => simpa [updAt] using ih

theorem updAt_oob {α : Type} (f : α → α) {i : Nat} {l : List α} (h : l.length ≤ i) :
    updAt f i l = l := by
  induction l generalizing i with
  | nil => cases i <;> rfl
  | cons a as ih =>
    cases i with
    | zero => simp at h
    | succ n =>
      simp only [updAt, List.cons.injEq, true_and]
      exact ih (by simpa using h)

theorem getAltsW_eq (ws : List Word) (i : Nat) :
    getAltsW ws i = ((ws.get? i).map Word.alternatives).getD [] := rfl

/-- Updating only the firstupper flag never changes any alternatives list. -/
theorem getAltsW_updAt_firstupper (ws : List Word) (i j : Nat) :
    getAltsW (updAt (fun w => { w with firstupper := true }) i ws) j = getAltsW ws j := by
  by_cases h : i = j
  · subst h
    simp only [getAltsW, get?_updAt_self]
    cases ws.get? i <;> rfl
  · simp only [getAltsW, get?_updAt_ne _ ws h]

theorem getAltsW_append_lt (ws tl : List Word) {i : Nat} (h : i < ws.length) :
    getAltsW (ws ++ tl) i = getAltsW ws i := by
  simp only [getAltsW, List.get?_append h]

theorem getAltsW_concat_self (ws : List Word) (w : Word) :
    getAltsW (ws ++ [w]) ws.length = w.alternatives := by
  simp only [getAltsW, List.get?_concat_length, Option.map_some', Option.getD_some]

theorem getAltsW_oob (ws : List Word) {i : Nat} (h : ws.length ≤ i) :
    getAltsW ws i = [] := by
  simp only [getAltsW, List.get?_eq_none.mpr h, Option.map_none', Option.getD_none]

end LGTok

namespace LGTok

theorem getAltsW_updAt_ne {f : Word → Word} {i j : Nat} (ws : List Word) (h : i ≠ j) :
    getAltsW (updAt f i ws) j = getAltsW ws j := by
  simp only [getAltsW, get?_updAt_ne _ ws h]

theorem getAltsW_updAt_append {i : Nat} (ws : List Word) (a : List Char)
    (h : i < ws.length) :
    getAltsW (updAt (appendAlt a) i ws) i = getAltsW ws i ++ [a] := by
  cases hw : ws.get? i with
  | none =>
    have := List.get?_eq_none.mp hw
    omega
  | some w =>
    simp only [getAltsW, get?_updAt_self, hw, Option.map_some', Option.getD_some, appendAlt]

theorem add_one_ai (ctx : Ctx) (t_start : Nat) (st : AAState) (c : AffixType × List Char) :
    (add_one ctx t_start st c).ai = st.ai + 1 := rfl


theorem AAInv_mk (t_start tc0 n : Nat) (ws0 W : List Word) (T A : Nat)
    (h1 : T = max tc0 A)
    (h2 : W.length = t_start + T)
    (h3 : ∀ i, i < t_start → W.get? i = ws0.get? i)
    (h4 : ∀ j, j < A → j < tc0 →
      ∃ a, getAltsW W (t_start + j) = getAltsW ws0 (t_start + j) ++ [a])
    (h5 : ∀ j, tc0 ≤ j → j < A →
      ∃ a, getAltsW W (t_start + j) = List.replicate n EMPTY_WORD_MARK ++ [a])
    (h6 : ∀ j, A ≤ j → getAltsW W (t_start + j) = getAltsW ws0 (t_start + j)) :
    AAInv t_start tc0 n ws0 ⟨W, T, A⟩ :=
  ⟨h1, h2, h3, h4, h5, h6⟩

theorem add_one_inv (ctx : Ctx) (t_start tc0 n : Nat) (ws0 : List Word)
    (hn : n = (getAltsW ws0 t_start).length)
    (hlen0 : ws0.length = t_start + tc0)
    (st : AAState) (c : AffixType × List Char)
    (h : AAInv t_start tc0 n ws0 st) :
    AAInv t_start tc0 n ws0 (add_one ctx t_start st c) := by
  obtain ⟨h1, h2, h3, h4, h5, h6⟩ := h
  have hai_le : st.ai ≤ st.t_count := by omega
  by_cases hc : st.ai = st.t_count
  · -- a new slot is created
    have hidx : t_start + st.ai = st.word.length := by omega
    by_cases ha0 : st.ai = 0
    · -- very first slot of the group
      have htc0 : tc0 = 0 := by omega
      have hts : st.word.length = t_start := by omega
      have hn0 : n = 0 := by
        rw [hn, getAltsW_oob ws0 (by omega)]
        rfl
      have hpre :
          (if st.t_count + 1 > 1 then
              List.replicate ((getAltsW st.word t_start).length - 1) EMPTY_WORD_MARK
            else []) = [] := by
        have h0 : ¬ (st.t_count + 1 > 1) := by omega
        simp [h0]
      have hb : ∀ (b : Bool),
          AAInv t_start tc0 n ws0
            ⟨updAt (appendAlt (format_affix ctx c.1 c.2)) (t_start + st.ai)
                (if b then
                  updAt (fun w => { w with firstupper := true }) t_start
                    (st.word ++ [⟨[], none, false⟩])
                 else st.word ++ [⟨[], none, false⟩]),
              st.t_count + 1, st.ai + 1⟩ := by
        intro b
        have hw2 : (if b then
              updAt (fun w => { w with firstupper := true }) t_start
                (st.word ++ [⟨[], none, false⟩])
             else st.word ++ [⟨[], none, false⟩])
            = st.word ++ [⟨[], none, b⟩] := by
          cases b
          · simp
          · simp only [if_pos]
            rw [← hts, updAt_append_length]
        rw [hw2]
        have hfinal : updAt (appendAlt (format_affix ctx c.1 c.2)) (t_start + st.ai)
              (st.word ++ [⟨[], none, b⟩])
            = st.word ++ [⟨[format_affix ctx c.1 c.2], none, b⟩] := by
          rw [hidx, updAt_append_length]
          rfl
        rw [hfinal]
        apply AAInv_mk
        · omega
        · simp only [List.length_append, List.length_singleton]; omega
        · intro i hi
          rw [List.get?_append (by omega), h3 i hi]
        · intro j hj hj0
          omega
        · intro j hj hjlt
          have hj0 : j = 0 := by omega
          subst hj0
          refine ⟨format_affix ctx c.1 c.2, ?_⟩
          have he : t_start + 0 = st.word.length := by omega
          rw [he, getAltsW_concat_self, hn0]
          rfl
        · intro j hj
          rw [getAltsW_oob _ (by simp only [List.length_append, List.length_singleton]; omega),
              getAltsW_oob ws0 (by omega)]
      simp only [add_one, if_pos hc, hpre, gt_iff_lt]
      split
      · exact hb true
      · exact hb false
    · -- later slot: pre-filled with n empty-word markers
      have hA1 : 1 ≤ st.ai := by omega
      have htc0A : tc0 ≤ st.ai := by omega
      have hcnt : (getAltsW st.word t_start).length = n + 1 := by
        rcases Nat.eq_zero_or_pos tc0 with h0 | hpos
        · obtain ⟨a, ha⟩ := h5 0 (by omega) (by omega)
          have hl := congrArg List.length ha
          simp only [Nat.add_zero] at hl
          simpa using hl
        · obtain ⟨a, ha⟩ := h4 0 (by omega) (by omega)
          have hl := congrArg List.length ha
          have hlen : (getAltsW ws0 (t_start + 0)).length = n := by
            simp only [Nat.add_zero]; omega
          simp only [List.length_append, List.length_singleton, Nat.add_zero] at hl hlen
          omega
      have hpre :
          (if st.t_count + 1 > 1 then
              List.replicate ((getAltsW st.word t_start).length - 1) EMPTY_WORD_MARK
            else []) = List.replicate n EMPTY_WORD_MARK := by
        have hgt : st.t_count + 1 > 1 := by omega
        simp [hgt, hcnt]
      have hb : ∀ (b : Bool),
          AAInv t_start tc0 n ws0
            ⟨updAt (appendAlt (format_affix ctx c.1 c.2)) (t_start + st.ai)
                (if b then
                  updAt (fun w => { w with firstupper := true }) t_start
                    (st.word ++ [⟨List.replicate n EMPTY_WORD_MARK, none, false⟩])
                 else st.word ++ [⟨List.replicate n EMPTY_WORD_MARK, none, false⟩]),
              st.t_count + 1, st.ai + 1⟩ := by
        intro b
        have hw2 : (if b then
              updAt (fun w => { w with firstupper := true }) t_start
                (st.word ++ [⟨List.replicate n EMPTY_WORD_MARK, none, false⟩])
             else st.word ++ [⟨List.replicate n EMPTY_WORD_MARK, none, false⟩])
            = (if b then updAt (fun w => { w with firstupper := true }) t_start st.word
               else st.word) ++ [⟨List.replicate n EMPTY_WORD_MARK, none, false⟩] := by
          cases b
          · simp
          · simp only [if_pos]
            rw [updAt_append_left _ _ (by omega)]
        rw [hw2]
        have hbaselen : (if b then updAt (fun w => { w with firstupper := true }) t_start st.word
               else st.word).length = st.word.length := by
          cases b <;> simp [updAt_length]
        have hbasealt : ∀ j, getAltsW (if b then
                updAt (fun w => { w with firstupper := true }) t_start st.word
               else st.word) j = getAltsW st.word j := by
          intro j
          cases b
          · simp
          · simp only [if_pos]
            exact getAltsW_updAt_firstupper st.word t_start j
        have hbaseget : ∀ i, i < t_start → (if b then
                updAt (fun w => { w with firstupper := true }) t_start st.word
               else st.word).get? i = st.word.get? i := by
          intro i hi
          cases b
          · simp
          · simp only [if_pos]
            exact get?_updAt_ne _ st.word (by omega)
        set base := (if b then updAt (fun w => { w with firstupper := true }) t_start st.word
               else st.word) with hbase
        have hfinal : updAt (appendAlt (format_affix ctx c.1 c.2)) (t_start + st.ai)
              (base ++ [⟨List.replicate n EMPTY_WORD_MARK, none, false⟩])
            = base ++ [⟨List.replicate n EMPTY_WORD_MARK ++ [format_affix ctx c.1 c.2],
                none, false⟩] := by
          have he : t_start + st.ai = base.length := by omega
          rw [he, updAt_append_length]
          rfl
        rw [hfinal]
        apply AAInv_mk
        · omega
        · simp only [List.length_append, List.length_singleton]; omega
        · intro i hi
          rw [List.get?_append (by omega), hbaseget i hi, h3 i hi]
        · intro j hj hj0
          have hjA : j < st.ai := by omega
          obtain ⟨a, ha⟩ := h4 j hjA hj0
          refine ⟨a, ?_⟩
          rw [getAltsW_append_lt _ _ (by omega), hbasealt, ha]
        · intro j hj hjlt
          rcases Nat.lt_or_ge j st.ai with hjA | hjA
          · obtain ⟨a, ha⟩ := h5 j hj hjA
            refine ⟨a, ?_⟩
            rw [getAltsW_append_lt _ _ (by omega), hbasealt, ha]
          · have hjA2 : j = st.ai := by omega
            subst hjA2
            refine ⟨format_affix ctx c.1 c.2, ?_⟩
            have he : t_start + st.ai = base.length := by omega
            rw [he, getAltsW_concat_self]
        · intro j hj
          rw [getAltsW_oob _ (by simp only [List.length_append, List.length_singleton]; omega),
              getAltsW_oob ws0 (by omega)]
      simp only [add_one, if_pos hc, hpre]
      split
      · exact hb true
      · exact hb false
  · -- existing slot: append to it
    have hAT : st.ai < st.t_count := by omega
    have htc0T : st.t_count = tc0 := by omega
    have hb : ∀ (b : Bool),
        AAInv t_start tc0 n ws0
          ⟨updAt (appendAlt (format_affix ctx c.1 c.2)) (t_start + st.ai)
              (if b then updAt (fun w => { w with firstupper := true }) t_start st.word
               else st.word),
            st.t_count, st.ai + 1⟩ := by
      intro b
      have hbaselen : (if b then updAt (fun w => { w with firstupper := true }) t_start st.word
             else st.word).length = st.word.length := by
        cases b <;> simp [updAt_length]
      have hbasealt : ∀ j, getAltsW (if b then
              updAt (fun w => { w with firstupper := true }) t_start st.word
             else st.word) j = getAltsW st.word j := by
        intro j
        cases b
        · simp
        · simp only [if_pos]
          exact getAltsW_updAt_firstupper st.word t_start j
      have hbaseget : ∀ i, i < t_start → (if b then
              updAt (fun w => { w with firstupper := true }) t_start st.word
             else st.word).get? i = st.word.get? i := by
        intro i hi
        cases b
        · simp
        · simp only [if_pos]
          exact get?_updAt_ne _ st.word (by omega)
      set base := (if b then updAt (fun w => { w with firstupper := true }) t_start st.word
             else st.word) with hbase
      apply AAInv_mk
      · omega
      · rw [updAt_length]; omega
      · intro i hi
        rw [get?_updAt_ne _ base (by omega), hbaseget i hi, h3 i hi]
      · intro j hj hj0
        rcases Nat.lt_or_ge j st.ai with hjA | hjA
        · obtain ⟨a, ha⟩ := h4 j hjA hj0
          refine ⟨a, ?_⟩
          rw [getAltsW_updAt_ne base (by omega), hbasealt, ha]
        · have hjA2 : j = st.ai := by omega
          subst hjA2
          refine ⟨format_affix ctx c.1 c.2, ?_⟩
          rw [getAltsW_updAt_append base _ (by omega), hbasealt, h6 st.ai (Nat.le_refl _)]
      · intro j hj hjlt
        omega
      · intro j hj
        rw [getAltsW_updAt_ne base (by omega), hbasealt]
        exact h6 j (by omega)
    simp only [add_one, if_neg hc]
    split
    · exact hb true
    · exact hb false



theorem add_loop_inv (ctx : Ctx) (t_start tc0 n : Nat) (ws0 : List Word)
    (hn : n = (getAltsW ws0 t_start).length)
    (hlen0 : ws0.length = t_start + tc0) :
    ∀ (comps : List (AffixType × List Char)) (st : AAState),
      AAInv t_start tc0 n ws0 st →
      AAInv t_start tc0 n ws0 (add_loop ctx t_start comps st) ∧
      (add_loop ctx t_start comps st).ai = st.ai + comps.length := by
  intro comps
  induction comps with
  | nil => intro st h; exact ⟨h, rfl⟩
  | cons c rest ih =>
    intro st h
    have hstep := add_one_inv ctx t_start tc0 n ws0 hn hlen0 st c h
    obtain ⟨hres, hai⟩ := ih (add_one ctx t_start st c) hstep
    refine ⟨hres, ?_⟩
    rw [add_loop, hai, add_one_ai]
    simp only [List.length_cons]
    omega

theorem balance_tail_length (m : Nat) : ∀ (i : Nat) (ws : List Word),
    (balance_tail i m ws).length = ws.length := by
  induction m with
  | zero => intro i ws; rfl
  | succ m ih =>
    intro i ws
    rw [balance_tail, ih, updAt_length]

theorem balance_tail_get?_out (m : Nat) : ∀ (i j : Nat) (ws : List Word),
    (j < i ∨ i + m ≤ j) → (balance_tail i m ws).get? j = ws.get? j := by
  induction m with
  | zero => intro i j ws _; rfl
  | succ m ih =>
    intro i j ws hj
    rw [balance_tail, ih (i+1) j _ (by omega), get?_updAt_ne _ ws (by omega)]

theorem balance_tail_mid (m : Nat) : ∀ (i j : Nat) (ws : List Word),
    i ≤ j → j < i + m → j < ws.length →
    getAltsW (balance_tail i m ws) j = getAltsW ws j ++ [EMPTY_WORD_MARK] := by
  induction m with
  | zero => intro i j ws h1 h2 _; omega
  | succ m ih =>
    intro i j ws h1 h2 hlt
    rcases Nat.eq_or_lt_of_le h1 with he | hgt
    · subst he
      rw [balance_tail]
      have : getAltsW (balance_tail (i+1) m (updAt (appendAlt EMPTY_WORD_MARK) i ws)) i
          = getAltsW (updAt (appendAlt EMPTY_WORD_MARK) i ws) i := by
        simp only [getAltsW, balance_tail_get?_out m (i+1) i _ (by omega)]
      rw [this, getAltsW_updAt_append ws _ hlt]
    · rw [balance_tail, ih (i+1) j _ (by omega) (by omega) (by rw [updAt_length]; exact hlt),
        getAltsW_updAt_ne ws (by omega)]

/-- Master characterization of add_alternative in the non-degenerate case
(at least one component, with a non-empty first component): the staging
window grows to the larger of the old count and the component count, each
slot receiving a component gains exactly one alternative, freshly created
slots are pre-filled with empty-word markers matching the first slot's old
alternative count, trailing slots of the group gain one empty-word marker,
and everything before the window (and the commit bookkeeping) is
untouched. -/
theorem add_alt_spec (ctx : Ctx) (s : Sentence) (pfxs stems sfxs : List (List Char))
    (c : AffixType × List Char) (rest : List (AffixType × List Char))
    (hc : mkComps pfxs stems sfxs = c :: rest) (hne : c.2 ≠ [])
    (hwf : WFs s) :
    (add_alternative ctx s pfxs stems sfxs).t_start = s.t_start ∧
    (add_alternative ctx s pfxs stems sfxs).length = s.length ∧
    (add_alternative ctx s pfxs stems sfxs).post_quote = s.post_quote ∧
    (add_alternative ctx s pfxs stems sfxs).t_count = max s.t_count (c :: rest).length ∧
    (add_alternative ctx s pfxs stems sfxs).word.length
      = s.t_start + (add_alternative ctx s pfxs stems sfxs).t_count ∧
    (∀ i, i < s.t_start →
      (add_alternative ctx s pfxs stems sfxs).word.get? i = s.word.get? i) ∧
    (∀ j, j < (c :: rest).length → j < s.t_count →
      ∃ a, getAlts (add_alternative ctx s pfxs stems sfxs) (s.t_start + j)
        = getAlts s (s.t_start + j) ++ [a]) ∧
    (∀ j, s.t_count ≤ j → j < (c :: rest).length →
      ∃ a, getAlts (add_alternative ctx s pfxs stems sfxs) (s.t_start + j)
        = List.replicate (altcount s s.t_start) EMPTY_WORD_MARK ++ [a]) ∧
    (∀ j, (c :: rest).length ≤ j → j < s.t_count →
      getAlts (add_alternative ctx s pfxs stems sfxs) (s.t_start + j)
        = getAlts s (s.t_start + j) ++ [EMPTY_WORD_MARK]) := by
  have hne2 : c.2.isEmpty = false := by
    cases hcc : c.2
    · exact absurd hcc hne
    · rfl
  have hadd : add_alternative ctx s pfxs stems sfxs
      = { s with
          word := balance_tail
            (s.t_start + (add_loop ctx s.t_start (c :: rest) ⟨s.word, s.t_count, 0⟩).ai)
            ((add_loop ctx s.t_start (c :: rest) ⟨s.word, s.t_count, 0⟩).t_count
              - (add_loop ctx s.t_start (c :: rest) ⟨s.word, s.t_count, 0⟩).ai)
            (add_loop ctx s.t_start (c :: rest) ⟨s.word, s.t_count, 0⟩).word,
          t_count := (add_loop ctx s.t_start (c :: rest) ⟨s.word, s.t_count, 0⟩).t_count } := by
    rw [add_alternative, hc]
    simp only [hne2, Bool.false_eq_true, if_false]
  have hwf2 : s.word.length = s.t_start + s.t_count := hwf
  have hinit : AAInv s.t_start s.t_count (getAltsW s.word s.t_start).length s.word
      ⟨s.word, s.t_count, 0⟩ :=
    AAInv_mk s.t_start s.t_count (getAltsW s.word s.t_start).length s.word s.word
      s.t_count 0 (by omega) hwf2 (fun i _ => rfl)
      (fun j hj _ => absurd hj (by omega)) (fun j _ hj => absurd hj (by omega))
      (fun j _ => rfl)
  obtain ⟨hinv, hai⟩ := add_loop_inv ctx s.t_start s.t_count
    (getAltsW s.word s.t_start).length s.word rfl hwf2 (c :: rest) _ hinit
  obtain ⟨g1, g2, g3, g4, g5, g6⟩ := hinv
  set st := add_loop ctx s.t_start (c :: rest) ⟨s.word, s.t_count, 0⟩ with hst
  have hk : st.ai = (c :: rest).length := by
    have h0 : ({ word := s.word, t_count := s.t_count, ai := 0 } : AAState).ai = 0 := rfl
    omega
  have hT : st.t_count = max s.t_count (c :: rest).length := by rw [g1, hk]
  rw [hadd]
  refine ⟨rfl, rfl, rfl, hT, ?_, ?_, ?_, ?_, ?_⟩
  · simp only [balance_tail_length]
    omega
  · intro i hi
    simp only []
    rw [balance_tail_get?_out _ _ _ _ (by omega), g3 i hi]
  · intro j hj hj0
    obtain ⟨a, ha⟩ := g4 j (by omega) hj0
    refine ⟨a, ?_⟩
    simp only [getAlts]
    rw [balance_tail_get?_out _ _ _ _ (by omega)]
    exact ha
  · intro j hj hjlt
    obtain ⟨a, ha⟩ := g5 j hj (by omega)
    refine ⟨a, ?_⟩
    simp only [getAlts]
    rw [balance_tail_get?_out _ _ _ _ (by omega)]
    exact ha
  · intro j hj hjlt
    have hmid : getAltsW (balance_tail (s.t_start + st.ai) (st.t_count - st.ai) st.word)
          (s.t_start + j)
        = getAltsW st.word (s.t_start + j) ++ [EMPTY_WORD_MARK] := by
      apply balance_tail_mid
      · omega
      · omega
      · rw [g2]; omega
    simp only [getAlts]
    show getAltsW (balance_tail (s.t_start + st.ai) (st.t_count - st.ai) st.word)
        (s.t_start + j) = getAltsW s.word (s.t_start + j) ++ [EMPTY_WORD_MARK]
    rw [hmid, g6 j (by omega)]



/-- Any element update that keeps the alternatives field keeps every
slot's alternatives list. -/
theorem getAltsW_updAt_pres {f : Word → Word}
    (hf : ∀ w, (f w).alternatives = w.alternatives) (i j : Nat) (ws : List Word) :
    getAltsW (updAt f i ws) j = getAltsW ws j := by
  by_cases h : i = j
  · subst h
    simp only [getAltsW, get?_updAt_self]
    cases ws.get? i with
    | none => rfl
    | some w => simp [hf w]
  · simp only [getAltsW, get?_updAt_ne _ ws h]

theorem add_alt_nil (ctx : Ctx) (s : Sentence) (pfxs stems sfxs : List (List Char))
    (hc : mkComps pfxs stems sfxs = []) :
    add_alternative ctx s pfxs stems sfxs
      = { s with word := balance_tail s.t_start s.t_count s.word } := by
  rw [add_alternative, hc]

theorem add_alt_reject (ctx : Ctx) (s : Sentence) (pfxs stems sfxs : List (List Char))
    (c : AffixType × List Char) (rest : List (AffixType × List Char))
    (hc : mkComps pfxs stems sfxs = c :: rest) (he : c.2 = []) :
    add_alternative ctx s pfxs stems sfxs = s := by
  rw [add_alternative, hc]
  simp [he]

/-- add_alternative preserves the staging bookkeeping in every case. -/
theorem add_alt_preserves (ctx : Ctx) (s : Sentence) (pfxs stems sfxs : List (List Char))
    (hwf : WFs s) :
    WFs (add_alternative ctx s pfxs stems sfxs) ∧
    (add_alternative ctx s pfxs stems sfxs).t_start = s.t_start ∧
    (add_alternative ctx s pfxs stems sfxs).length = s.length ∧
    (add_alternative ctx s pfxs stems sfxs).post_quote = s.post_quote ∧
    (∀ i, i < s.t_start →
      (add_alternative ctx s pfxs stems sfxs).word.get? i = s.word.get? i) ∧
    s.t_count ≤ (add_alternative ctx s pfxs stems sfxs).t_count := by
  cases hc : mkComps pfxs stems sfxs with
  | nil =>
    rw [add_alt_nil ctx s pfxs stems sfxs hc]
    refine ⟨?_, rfl, rfl, rfl, ?_, Nat.le_refl _⟩
    · show (balance_tail s.t_start s.t_count s.word).length = s.t_start + s.t_count
      rw [balance_tail_length]
      exact hwf
    · intro i hi
      exact balance_tail_get?_out _ _ _ _ (Or.inl hi)
  | cons c rest =>
    by_cases he : c.2 = []
    · rw [add_alt_reject ctx s pfxs stems sfxs c rest hc he]
      exact ⟨hwf, rfl, rfl, rfl, fun i _ => rfl, Nat.le_refl _⟩
    · obtain ⟨p1, p2, p3, p4, p5, p6, _, _, _⟩ := add_alt_spec ctx s pfxs stems sfxs c rest hc he hwf
      refine ⟨?_, p1, p2, p3, p6, ?_⟩
      · show (add_alternative ctx s pfxs stems sfxs).word.length
          = (add_alternative ctx s pfxs stems sfxs).t_start
            + (add_alternative ctx s pfxs stems sfxs).t_count
        rw [p1, p5]
      · rw [p4]
        omega

/-- add_alternative keeps the staged group balanced. -/
theorem add_alt_balanced (ctx : Ctx) (s : Sentence) (pfxs stems sfxs : List (List Char))
    (hwf : WFs s) (hbal : StageBalanced s) :
    StageBalanced (add_alternative ctx s pfxs stems sfxs) := by
  cases hc : mkComps pfxs stems sfxs with
  | nil =>
    rw [add_alt_nil ctx s pfxs stems sfxs hc]
    intro j hj
    have hj' : j < s.t_count := hj
    have h0 : 0 < s.t_count := by omega
    have hmid : ∀ jj, jj < s.t_count →
        getAltsW (balance_tail s.t_start s.t_count s.word) (s.t_start + jj)
          = getAltsW s.word (s.t_start + jj) ++ [EMPTY_WORD_MARK] := by
      intro jj hjj
      apply balance_tail_mid
      · omega
      · omega
      · rw [hwf]; omega
    show (getAltsW (balance_tail s.t_start s.t_count s.word) (s.t_start + j)).length
      = (getAltsW (balance_tail s.t_start s.t_count s.word) s.t_start).length
    have e1 := hmid j hj'
    have e2 := hmid 0 h0
    rw [Nat.add_zero] at e2
    rw [e1, e2]
    simp only [List.length_append, List.length_singleton]
    have hb := hbal j hj'
    simp only [altcount, getAlts, getAltsW] at hb ⊢
    omega
  | cons c rest =>
    by_cases he : c.2 = []
    · rw [add_alt_reject ctx s pfxs stems sfxs c rest hc he]
      exact hbal
    · obtain ⟨p1, p2, p3, p4, p5, p6, p7, p8, p9⟩ :=
        add_alt_spec ctx s pfxs stems sfxs c rest hc he hwf
      have hcount : ∀ j, j < (add_alternative ctx s pfxs stems sfxs).t_count →
          altcount (add_alternative ctx s pfxs stems sfxs) (s.t_start + j)
            = altcount s s.t_start + 1 := by
        intro j hj
        rw [p4] at hj
        rcases Nat.lt_or_ge j (c :: rest).length with hk | hk
        · rcases Nat.lt_or_ge j s.t_count with ht | ht
          · obtain ⟨a, ha⟩ := p7 j hk ht
            have hb := hbal j ht
            simp only [altcount] at hb ⊢
            rw [ha]
            simp only [List.length_append, List.length_singleton]
            omega
          · obtain ⟨a, ha⟩ := p8 j ht hk
            simp only [altcount]
            rw [ha]
            simp only [List.length_append, List.length_singleton, List.length_replicate]
            rfl
        · have ht : j < s.t_count := by omega
          have ha := p9 j hk ht
          have hb := hbal j ht
          simp only [altcount] at hb ⊢
          rw [ha]
          simp only [List.length_append, List.length_singleton]
          omega
      intro j hj
      rw [p1, hcount j hj]
      have h0 : 0 < (add_alternative ctx s pfxs stems sfxs).t_count := by omega
      have h00 := hcount 0 h0
      rw [Nat.add_zero] at h00
      rw [h00]

theorem issue_alt_zero (s : Sentence) (raw : List Char) (q : Bool) (h : s.t_count = 0) :
    issue_alternatives s raw q = (false, s) := by
  rw [issue_alternatives, if_pos h]

theorem issue_alt_pos (s : Sentence) (raw : List Char) (q : Bool) (h : s.t_count ≠ 0) :
    issue_alternatives s raw q =
      (true,
        { word := updAt (fun w => { w with unsplit_word := some raw }) s.t_start s.word,
          post_quote := setPQ s.post_quote s.t_start q,
          length := s.length + s.t_count,
          t_start := s.length + s.t_count,
          t_count := 0 }) := by
  rw [issue_alternatives, if_neg h]

/-- Committing never changes any slot's alternatives. -/
theorem getAlts_issue (s : Sentence) (raw : List Char) (q : Bool) (i : Nat) :
    getAlts (issue_alternatives s raw q).2 i = getAlts s i := by
  by_cases h : s.t_count = 0
  · rw [issue_alt_zero s raw q h]
  · rw [issue_alt_pos s raw q h]
    show getAltsW (updAt (fun w => { w with unsplit_word := some raw }) s.t_start s.word) i
      = getAltsW s.word i
    exact @getAltsW_updAt_pres (fun w => { w with unsplit_word := some raw })
      (fun w => rfl) s.t_start i s.word

theorem altcount_issue (s : Sentence) (raw : List Char) (q : Bool) (i : Nat) :
    altcount (issue_alternatives s raw q).2 i = altcount s i := by
  simp only [altcount, getAlts_issue]

/-- Staging a list of decompositions preserves wellformedness and
balance. -/
theorem stageAll_balanced (ctx : Ctx) (ds : List Decomp) :
    ∀ (s : Sentence), WFs s → StageBalanced s →
      WFs (stageAll ctx ds s) ∧ StageBalanced (stageAll ctx ds s) ∧
      (stageAll ctx ds s).t_start = s.t_start := by
  induction ds with
  | nil => intro s hwf hbal; exact ⟨hwf, hbal, rfl⟩
  | cons d rest ih =>
    intro s hwf hbal
    obtain ⟨q1, q2, _, _, _, _⟩ := add_alt_preserves ctx s d.pf d.stm d.sf hwf
    have hb := add_alt_balanced ctx s d.pf d.stm d.sf hwf hbal
    obtain ⟨r1, r2, r3⟩ := ih (add_alternative ctx s d.pf d.stm d.sf) q1 hb
    exact ⟨r1, r2, by rw [stageAll] at r3 ⊢; simp only [List.foldl_cons] at r3 ⊢; rw [r3, q2]⟩



/-- On a fresh staging window, a single-stem add appends exactly one slot
holding the truncated stem. -/
theorem add_alt_single_stem (ctx : Ctx) (s : Sentence) (t : List Char)
    (hwf : s.word.length = s.t_start) (hfresh : s.t_count = 0) (hne : t ≠ []) :
    add_alternative ctx s [] [t] []
      = { s with
          word := s.word ++ [⟨[t.take MAX_WORD], none, is_utf8_upper ctx (t.take MAX_WORD)⟩],
          t_count := 1 } := by
  obtain ⟨W, P, L, TS, TC⟩ := s
  simp only at hwf hfresh
  subst hfresh
  subst hwf
  have hne2 : t.isEmpty = false := by
    cases t
    · exact absurd rfl hne
    · rfl
  have hfmt : format_affix ctx AffixType.stem t = t.take MAX_WORD := rfl
  simp only [add_alternative, mkComps, List.map_nil, List.map_cons, List.nil_append,
    List.append_nil, hne2, Bool.false_eq_true, if_false]
  simp only [add_loop, add_one, hfmt, if_true, Nat.zero_add, gt_iff_lt, lt_self_iff_false,
    Nat.add_zero, Nat.sub_self]
  simp only [balance_tail]
  by_cases hu : is_utf8_upper ctx (t.take MAX_WORD)
  · simp only [hu, if_true, updAt_append_length]
    rfl
  · simp only [hu, Bool.false_eq_true, if_false, updAt_append_length]
    rfl



/-- On a fresh staging window, a stem+suffix add appends exactly two slots:
the truncated stem (carrying the firstupper flag of either component) and the
formatted suffix. -/
theorem add_alt_stem_sfx (ctx : Ctx) (s : Sentence) (stm sfx : List Char)
    (hwf : s.word.length = s.t_start) (hfresh : s.t_count = 0) (hne : stm ≠ []) :
    add_alternative ctx s [] [stm] [sfx]
      = { s with
          word := s.word ++
            [⟨[stm.take MAX_WORD], none,
              is_utf8_upper ctx (stm.take MAX_WORD)
                || is_utf8_upper ctx (format_affix ctx AffixType.sfx sfx)⟩,
             ⟨[format_affix ctx AffixType.sfx sfx], none, false⟩],
          t_count := 2 } := by
  obtain ⟨W, P, L, TS, TC⟩ := s
  simp only at hwf hfresh
  subst hfresh
  subst hwf
  have hne2 : stm.isEmpty = false := by
    cases stm
    · exact absurd rfl hne
    · rfl
  have hfmt : format_affix ctx AffixType.stem stm = stm.take MAX_WORD := rfl
  set b1 := stm.take MAX_WORD with hb1
  set b2 := format_affix ctx AffixType.sfx sfx with hb2
  set u1 := is_utf8_upper ctx b1 with hu1
  set u2 := is_utf8_upper ctx b2 with hu2
  have e0 : mkComps [] [stm] [sfx] = (AffixType.stem, stm) :: [(AffixType.sfx, sfx)] := by
    simp [mkComps]
  have e1 : add_one ctx W.length ⟨W, 0, 0⟩ (AffixType.stem, stm)
      = ⟨W ++ [⟨[b1], none, u1⟩], 1, 1⟩ := by
    simp only [add_one, hfmt, if_true, Nat.zero_add, gt_iff_lt, lt_self_iff_false, if_false,
      Nat.add_zero, ← hb1, ← hu1]
    cases hc : u1 with
    | true =>
      simp only [hc, if_true, updAt_append_length]
      rfl
    | false =>
      simp only [hc, Bool.false_eq_true, if_false, updAt_append_length]
      rfl
  have hrep : (if 1 + 1 > 1 then
        List.replicate
          ((getAltsW (W ++ [(⟨[b1], none, u1⟩ : Word)]) W.length).length - 1)
          EMPTY_WORD_MARK
      else []) = [] := by
    rw [getAltsW_concat_self]
    norm_num
  have hlen1 : W.length < (W ++ [(⟨[b1], none, u1⟩ : Word)]).length := by
    simp
  have e2 : add_one ctx W.length ⟨W ++ [⟨[b1], none, u1⟩], 1, 1⟩ (AffixType.sfx, sfx)
      = ⟨W ++ [⟨[b1], none, u1 || u2⟩, ⟨[b2], none, false⟩], 2, 2⟩ := by
    simp only [add_one, ← hb2, ← hu2, if_true, hrep]
    cases hc : u2 with
    | true =>
      simp only [hc, if_true]
      rw [updAt_append_left _ _ hlen1, updAt_append_length]
      have hx : (W ++ [(⟨[b1], none, true⟩ : Word)]).length = W.length + 1 := by simp
      rw [show W.length + 1
          = (W ++ [(⟨[b1], none, true⟩ : Word)]).length from hx.symm]
      rw [updAt_append_length]
      simp [appendAlt]
    | false =>
      simp only [hc, Bool.false_eq_true, if_false]
      have hx : (W ++ [(⟨[b1], none, u1⟩ : Word)]).length = W.length + 1 := by simp
      rw [show W.length + 1
          = (W ++ [(⟨[b1], none, u1⟩ : Word)]).length from hx.symm]
      rw [updAt_append_length]
      simp [appendAlt]
  have e3 : add_loop ctx W.length ((AffixType.stem, stm) :: [(AffixType.sfx, sfx)]) ⟨W, 0, 0⟩
      = ⟨W ++ [⟨[b1], none, u1 || u2⟩, ⟨[b2], none, false⟩], 2, 2⟩ := by
    rw [add_loop, e1, add_loop, e2, add_loop]
  simp only [add_alternative, e0, hne2, Bool.false_eq_true, if_false, e3]
  simp [balance_tail]


/-- On a committed sentence, issuing a non-empty single word appends
exactly one committed single-alternative slot. -/
theorem issue_sentence_word_spec (ctx : Ctx) (s : Sentence) (t : List Char) (q : Bool)
    (hwf : s.word.length = s.t_start) (hfresh : s.t_count = 0) (hne : t ≠ []) :
    issue_sentence_word ctx s t q
      = { word := s.word ++ [⟨[t.take MAX_WORD], some t, is_utf8_upper ctx (t.take MAX_WORD)⟩],
          post_quote := setPQ s.post_quote s.t_start q,
          length := s.length + 1,
          t_start := s.length + 1,
          t_count := 0 } := by
  rw [issue_sentence_word, add_alt_single_stem ctx s t hwf hfresh hne]
  rw [issue_alt_pos _ t q (by simp)]
  simp only []
  rw [show s.t_start = s.word.length from hwf.symm, updAt_append_length]

theorem Extends.trans {s1 s2 s3 : Sentence} (h1 : Extends s1 s2) (h2 : Extends s2 s3) :
    Extends s1 s3 := by
  obtain ⟨a1, a2⟩ := h1
  obtain ⟨b1, b2⟩ := h2
  exact ⟨Nat.le_trans a1 b1, fun i hi => by rw [b2 i (by omega), a2 i hi]⟩

theorem Extends.refl (s : Sentence) : Extends s s := ⟨Nat.le_refl _, fun i _ => rfl⟩

/-- add_alternative preserves InvS and extends the sentence. -/
theorem add_alt_invs (ctx : Ctx) (s : Sentence) (pfxs stems sfxs : List (List Char))
    (hinv : InvS s) :
    InvS (add_alternative ctx s pfxs stems sfxs) ∧
    Extends s (add_alternative ctx s pfxs stems sfxs) := by
  obtain ⟨hwf, hts⟩ := hinv
  obtain ⟨q1, q2, q3, _, q5, _⟩ := add_alt_preserves ctx s pfxs stems sfxs hwf
  refine ⟨⟨q1, by rw [q2, q3, hts]⟩, by rw [q3], ?_⟩
  intro i hi
  exact q5 i (by omega)

/-- issue_alternatives preserves InvS, empties the window, and extends. -/
theorem issue_alt_invs (s : Sentence) (raw : List Char) (q : Bool) (hinv : InvS s) :
    Committed (issue_alternatives s raw q).2 ∧ Extends s (issue_alternatives s raw q).2 := by
  obtain ⟨hwf, hts⟩ := hinv
  by_cases h : s.t_count = 0
  · rw [issue_alt_zero s raw q h]
    exact ⟨⟨⟨hwf, hts⟩, h⟩, Extends.refl s⟩
  · rw [issue_alt_pos s raw q h]
    refine ⟨⟨⟨?_, rfl⟩, rfl⟩, ⟨by simp only []; omega, ?_⟩⟩
    · show (updAt (fun w => { w with unsplit_word := some raw }) s.t_start s.word).length
        = s.length + s.t_count + 0
      rw [updAt_length]
      omega
    · intro i hi
      show (updAt (fun w => { w with unsplit_word := some raw }) s.t_start s.word).get? i
        = s.word.get? i
      exact get?_updAt_ne _ s.word (by omega)

/-- issue_sentence_word preserves the committed-state invariant. -/
theorem issue_sentence_word_invs (ctx : Ctx) (s : Sentence) (t : List Char) (q : Bool)
    (hinv : InvS s) :
    Committed (issue_sentence_word ctx s t q) ∧ Extends s (issue_sentence_word ctx s t q) := by
  obtain ⟨i1, e1⟩ := add_alt_invs ctx s [] [t] [] hinv
  obtain ⟨c2, e2⟩ := issue_alt_invs (add_alternative ctx s [] [t] []) t q i1
  exact ⟨c2, Extends.trans e1 e2⟩



/-- C1: for every sentence built by add_alternative and committed by
issue_alternatives, within each committed token group every slot holds the
same number of alternatives; a decomposition shorter than the group's slot
span is padded with the empty-word marker at the trailing slots, and a
newly created slot is pre-filled with empty-word markers to match the
alternative count already present at the group's first slot. -/
theorem c1_balancing_invariant (ctx : Ctx) (s : Sentence)
    (pfxs stems sfxs : List (List Char)) (c : AffixType × List Char)
    (rest : List (AffixType × List Char)) (ds : List Decomp) (raw : List Char) (q : Bool)
    (hwf : WFs s) (hbal : StageBalanced s)
    (hcr : mkComps pfxs stems sfxs = c :: rest) (hnec : c.2 ≠ []) :
    (∀ s0 : Sentence, s0.word.length = s0.t_start → s0.t_count = 0 →
      ∀ j, j < (stageAll ctx ds s0).t_count →
        altcount (issue_alternatives (stageAll ctx ds s0) raw q).2
            ((stageAll ctx ds s0).t_start + j)
          = altcount (issue_alternatives (stageAll ctx ds s0) raw q).2
            (stageAll ctx ds s0).t_start) ∧
    (∀ j, (mkComps pfxs stems sfxs).length ≤ j → j < s.t_count →
      getAlts (add_alternative ctx s pfxs stems sfxs) (s.t_start + j)
        = getAlts s (s.t_start + j) ++ [EMPTY_WORD_MARK]) ∧
    (∀ j, s.t_count ≤ j → j < (mkComps pfxs stems sfxs).length →
      ∃ a, getAlts (add_alternative ctx s pfxs stems sfxs) (s.t_start + j)
        = List.replicate (altcount s s.t_start) EMPTY_WORD_MARK ++ [a]) ∧
    (∀ i, i < s.t_start →
      (add_alternative ctx s pfxs stems sfxs).word.get? i = s.word.get? i) := by
  obtain ⟨p1, p2, p3, p4, p5, p6, p7, p8, p9⟩ :=
    add_alt_spec ctx s pfxs stems sfxs c rest hcr hnec hwf
  refine ⟨?_, ?_, ?_, p6⟩
  · intro s0 h1 h2 j hj
    have hwf0 : WFs s0 := by
      show s0.word.length = s0.t_start + s0.t_count
      rw [h2, h1]
      omega
    have hbal0 : StageBalanced s0 := by
      intro jj hjj
      rw [h2] at hjj
      exact absurd hjj (Nat.not_lt_zero jj)
    obtain ⟨_, hb2, _⟩ := stageAll_balanced ctx ds s0 hwf0 hbal0
    rw [altcount_issue, altcount_issue]
    exact hb2 j hj
  · intro j hj hjlt
    rw [hcr] at hj
    exact p9 j hj hjlt
  · intro j hj hjlt
    rw [hcr] at hjlt
    exact p8 j hj hjlt

/-- Witness for C1: staging "ab" and then "a"+"b" on an empty sentence and
committing yields a two-slot group whose slots both hold two
alternatives. -/
theorem c1_balancing_invariant_witness :
    altcount (issue_alternatives (stageAll exCtx exDs exEmpty) ("ab".toList) false).2
        ((stageAll exCtx exDs exEmpty).t_start + 1)
      = altcount (issue_alternatives (stageAll exCtx exDs exEmpty) ("ab".toList) false).2
        (stageAll exCtx exDs exEmpty).t_start := by
  have h := (c1_balancing_invariant exCtx exEmpty [] ["a".toList] ["b".toList]
    (AffixType.stem, "a".toList) [(AffixType.sfx, "b".toList)] exDs ("ab".toList) false
    rfl (fun j hj => absurd hj (Nat.not_lt_zero j)) (by decide) (by decide)).1
  exact h exEmpty rfl rfl 1 (by decide)

theorem setPQ_get_self (l : List (Option Bool)) (i : Nat) (b : Bool) :
    (setPQ l i b).get? i = some (some b) := by
  rw [setPQ, get?_updAt_self]
  cases hg : (l ++ List.replicate (i + 1 - l.length) none).get? i with
  | none =>
    have h1 := List.get?_eq_none.mp hg
    simp only [List.length_append, List.length_replicate] at h1
    omega
  | some y => rfl

/-- C2: issue_alternatives on an empty staged group returns false and
changes nothing; otherwise it records the raw word as the first slot's
unsplit_word and quote_found as its post_quote, advances length by t_count,
resets t_start to the new length and t_count to 0, and returns true. -/
theorem c2_issue_alternatives_commit (s : Sentence) (raw : List Char) (q : Bool)
    (hwf : WFs s) :
    (s.t_count = 0 → issue_alternatives s raw q = (false, s)) ∧
    (0 < s.t_count →
      (issue_alternatives s raw q).1 = true ∧
      ((issue_alternatives s raw q).2.word.get? s.t_start).map Word.unsplit_word
        = some (some raw) ∧
      (issue_alternatives s raw q).2.post_quote.get? s.t_start = some (some q) ∧
      (issue_alternatives s raw q).2.length = s.length + s.t_count ∧
      (issue_alternatives s raw q).2.t_start = (issue_alternatives s raw q).2.length ∧
      (issue_alternatives s raw q).2.t_count = 0) := by
  constructor
  · intro h
    exact issue_alt_zero s raw q h
  · intro h
    rw [issue_alt_pos s raw q (by omega)]
    refine ⟨rfl, ?_, ?_, rfl, rfl, rfl⟩
    · show ((updAt (fun w => { w with unsplit_word := some raw }) s.t_start s.word).get?
          s.t_start).map Word.unsplit_word = some (some raw)
      rw [get?_updAt_self]
      cases hg : s.word.get? s.t_start with
      | none =>
        have := List.get?_eq_none.mp hg
        have : s.t_start < s.word.length := by rw [hwf]; omega
        omega
      | some w => rfl
    · show (setPQ s.post_quote s.t_start q).get? s.t_start = some (some q)
      exact setPQ_get_self s.post_quote s.t_start q

/-- Witness for C2: committing a one-slot staged group records the raw word
and resets the window. -/
theorem c2_issue_alternatives_commit_witness :
    (issue_alternatives exStaged ("w".toList) true).1 = true ∧
    ((issue_alternatives exStaged ("w".toList) true).2.word.get? 0).map Word.unsplit_word
      = some (some ("w".toList)) ∧
    (issue_alternatives exStaged ("w".toList) true).2.t_count = 0 := by
  have h := (c2_issue_alternatives_commit exStaged ("w".toList) true rfl).2 (by decide)
  exact ⟨h.1, h.2.1, h.2.2.2.2.2⟩

/-- C5: a suffix component is emitted as the infix mark followed by the raw
suffix text, except when the suffix begins with a non-alphabetic code
point, the infix mark is NUL, or the no-suffixes debug toggle is on, in
which cases the suffix is emitted verbatim with no mark. -/
theorem c5_suffix_formatting (ctx : Ctx) (s : Sentence) (stm sfx : List Char)
    (hwf : s.word.length = s.t_start) (hfresh : s.t_count = 0)
    (hstm : stm ≠ []) (hlen : sfx.length + 1 ≤ MAX_WORD) :
    (add_alternative ctx s [] [stm] [sfx]).word.map Word.alternatives
      = s.word.map Word.alternatives ++
        [[stm.take MAX_WORD],
         [if (!sfx.isEmpty && !is_utf8_alpha ctx sfx) || ctx.imark == nulChar
              || ctx.test_no_suffixes then
            sfx
          else ctx.imark :: sfx]] := by
  have hfmt : format_affix ctx AffixType.sfx sfx
      = if (!sfx.isEmpty && !is_utf8_alpha ctx sfx) || ctx.imark == nulChar
            || ctx.test_no_suffixes then sfx
        else ctx.imark :: sfx := by
    rw [format_affix]
    split
    · exact List.take_of_length_le (by omega)
    · have hmin : min (sfx.length + 1) MAX_WORD = sfx.length + 1 := by omega
      rw [hmin, Nat.add_sub_cancel, List.take_length]
  rw [add_alt_stem_sfx ctx s stm sfx hwf hfresh hstm]
  simp only [List.map_append, List.map_cons, List.map_nil, hfmt]

/-- Witness for C5: the suffix component of you + 've is emitted verbatim
because it begins with an apostrophe. -/
theorem c5_suffix_formatting_witness :
    (add_alternative exCtx exEmpty [] ["you".toList] ["'ve".toList]).word.map
        Word.alternatives
      = [["you".toList], ["'ve".toList]] := by
  rw [c5_suffix_formatting exCtx exEmpty ("you".toList) ("'ve".toList) rfl rfl
    (by decide) (by decide)]
  decide



theorem aaws_fold_none (ctx : Ctx) (wd : List Char) (pfo sfo : Option (List Char)) :
    ∀ (l : List (List Char)) (acc : Sentence × Bool),
      (∀ ss, ss ∈ l → ctx.dict_lookup (stem_candidate wd ss) = false) →
      l.foldl
        (fun acc ss =>
          if ctx.dict_lookup (stem_candidate wd ss) then
            (add_alternative ctx acc.1 pfo.toList [stem_candidate wd ss] [sfo.getD []], true)
          else acc)
        acc = acc := by
  intro l
  induction l with
  | nil => intro acc _; rfl
  | cons ss rest ih =>
    intro acc h
    rw [List.foldl_cons, if_neg (by rw [h ss (List.mem_cons_self ss rest)]; simp)]
    exact ih acc (fun x hx => h x (List.mem_cons_of_mem ss hx))

theorem is_utf8_upper_congr {ctx ctx2 : Ctx} (h : ctx2.iswupper = ctx.iswupper) :
    ∀ l, is_utf8_upper ctx2 l = is_utf8_upper ctx l := by
  intro l
  cases l <;> simp [is_utf8_upper, h]

theorem format_affix_congr {ctx ctx2 : Ctx} (h1 : ctx2.imark = ctx.imark)
    (h3 : ctx2.iswalpha = ctx.iswalpha) (h4 : ctx2.test_no_suffixes = ctx.test_no_suffixes) :
    ∀ t a, format_affix ctx2 t a = format_affix ctx t a := by
  intro t a
  cases t with
  | pfx => simp [format_affix, h1]
  | stem => rfl
  | sfx =>
    have ha : is_utf8_alpha ctx2 a = is_utf8_alpha ctx a := by
      cases a <;> simp [is_utf8_alpha, h3]
    simp only [format_affix, h1, h4, ha]

theorem add_one_congr {ctx ctx2 : Ctx} (h1 : ctx2.imark = ctx.imark)
    (h2 : ctx2.iswupper = ctx.iswupper) (h3 : ctx2.iswalpha = ctx.iswalpha)
    (h4 : ctx2.test_no_suffixes = ctx.test_no_suffixes)
    (t_start : Nat) (st : AAState) (c : AffixType × List Char) :
    add_one ctx2 t_start st c = add_one ctx t_start st c := by
  simp only [add_one, format_affix_congr h1 h3 h4, is_utf8_upper_congr h2]

theorem add_loop_congr {ctx ctx2 : Ctx} (h1 : ctx2.imark = ctx.imark)
    (h2 : ctx2.iswupper = ctx.iswupper) (h3 : ctx2.iswalpha = ctx.iswalpha)
    (h4 : ctx2.test_no_suffixes = ctx.test_no_suffixes) (t_start : Nat) :
    ∀ (comps : List (AffixType × List Char)) (st : AAState),
      add_loop ctx2 t_start comps st = add_loop ctx t_start comps st := by
  intro comps
  induction comps with
  | nil => intro st; rfl
  | cons c rest ih =>
    intro st
    rw [add_loop, add_loop, add_one_congr h1 h2 h3 h4, ih]

/-- add_alternative reads only the infix mark, the upper/alpha classifiers
and the no-suffixes toggle from the context. -/
theorem add_alternative_congr {ctx ctx2 : Ctx} (h1 : ctx2.imark = ctx.imark)
    (h2 : ctx2.iswupper = ctx.iswupper) (h3 : ctx2.iswalpha = ctx.iswalpha)
    (h4 : ctx2.test_no_suffixes = ctx.test_no_suffixes)
    (s : Sentence) (pfxs stems sfxs : List (List Char)) :
    add_alternative ctx2 s pfxs stems sfxs = add_alternative ctx s pfxs stems sfxs := by
  rw [add_alternative, add_alternative]
  cases hm : mkComps pfxs stems sfxs with
  | nil => rfl
  | cons c rest =>
    by_cases he : c.2.isEmpty
    · simp [he]
    · simp only [he, Bool.false_eq_true, if_false, add_loop_congr h1 h2 h3 h4]

/-- C8: with a non-empty STEMSUBSCR class, add_alternative_with_subscr is
independent of the regex oracle and of find_word_in_dict (stem vetting is
literal-only), and emits nothing when every subscripted candidate fails the
literal dictionary lookup. -/
theorem c8_stem_vetting_literal_only (ctx : Ctx) (f : List Char → Bool)
    (g : List Char → Option (List Char)) (s : Sentence)
    (pfo : Option (List Char)) (wd : List Char) (sfo : Option (List Char))
    (hss : ctx.stemsubscr ≠ []) :
    add_alternative_with_subscr { ctx with in_dict := f, regex_match := g } s pfo wd sfo
      = add_alternative_with_subscr ctx s pfo wd sfo ∧
    ((∀ ss, ss ∈ ctx.stemsubscr → ctx.dict_lookup (stem_candidate wd ss) = false) →
      add_alternative_with_subscr ctx s pfo wd sfo = (s, false)) := by
  constructor
  · rw [add_alternative_with_subscr, add_alternative_with_subscr]
    have hc : ∀ (s2 : Sentence) (p st sf : List (List Char)),
        add_alternative { ctx with in_dict := f, regex_match := g } s2 p st sf
          = add_alternative ctx s2 p st sf :=
      fun s2 p st sf =>
        @add_alternative_congr ctx { ctx with in_dict := f, regex_match := g }
          rfl rfl rfl rfl s2 p st sf
    simp only [hc]
  · intro h
    rw [add_alternative_with_subscr,
      if_neg (by simp only [List.length_eq_zero]; exact hss)]
    exact aaws_fold_none ctx wd pfo sfo ctx.stemsubscr (s, false) h

/-- Witness for C8: a candidate failing the literal lookup is not emitted
even though the regex oracle matches everything. -/
theorem c8_stem_vetting_literal_only_witness :
    add_alternative_with_subscr { exCtx with stemsubscr := [".=".toList] } exEmpty
      none ("dog".toList) (some ("s".toList)) = (exEmpty, false) := by
  exact (c8_stem_vetting_literal_only { exCtx with stemsubscr := [".=".toList] }
    (fun _ => true) (fun w => some w) exEmpty none ("dog".toList) (some ("s".toList))
    (by decide)).2 (fun ss _ => rfl)

/-- C9: if the spell oracle itself recognizes the input word,
guess_misspelled_word returns false and leaves the sentence unchanged, so
the word falls through to the unknown-word path. -/
theorem c9_spell_test_short_circuit (ctx : Ctx) (s : Sentence) (word : List Char)
    (q : Bool) (h : ctx.spell_test word = true) :
    guess_misspelled_word ctx s word q = (s, false) := by
  by_cases hn : is_number ctx word
  · simp [guess_misspelled_word, hn]
  · simp [guess_misspelled_word, hn, h]

/-- Witness for C9: a word the spell-checker accepts produces no guesses
and no change. -/
theorem c9_spell_test_short_circuit_witness :
    guess_misspelled_word { exCtx with spell_test := fun _ => true } exEmpty
      ("qq".toList) false = (exEmpty, false) :=
  c9_spell_test_short_circuit { exCtx with spell_test := fun _ => true } exEmpty
    ("qq".toList) false rfl



/-- One add_alternative call grows the first slot's alternative count by at
most one. -/
theorem add_alt_altcount_le (ctx : Ctx) (s : Sentence) (pfxs stems sfxs : List (List Char))
    (hwf : WFs s) :
    altcount (add_alternative ctx s pfxs stems sfxs) s.t_start
      ≤ altcount s s.t_start + 1 := by
  cases hc : mkComps pfxs stems sfxs with
  | nil =>
    rw [add_alt_nil ctx s pfxs stems sfxs hc]
    rcases Nat.eq_zero_or_pos s.t_count with h0 | hpos
    · rw [h0]
      simp only [altcount, getAlts, balance_tail]
      omega
    · have := balance_tail_mid s.t_count s.t_start s.t_start s.word (Nat.le_refl _)
        (by omega) (by rw [hwf]; omega)
      show (getAltsW (balance_tail s.t_start s.t_count s.word) s.t_start).length
        ≤ (getAltsW s.word s.t_start).length + 1
      rw [this]
      simp
  | cons c rest =>
    by_cases he : c.2 = []
    · rw [add_alt_reject ctx s pfxs stems sfxs c rest hc he]
      omega
    · obtain ⟨p1, p2, p3, p4, p5, p6, p7, p8, p9⟩ :=
        add_alt_spec ctx s pfxs stems sfxs c rest hc he hwf
      rcases Nat.eq_zero_or_pos s.t_count with h0 | hpos
      · obtain ⟨a, ha⟩ := p8 0 (by omega) (by simp)
        rw [Nat.add_zero] at ha
        simp only [altcount] at ha ⊢
        rw [ha]
        simp
      · obtain ⟨a, ha⟩ := p7 0 (by simp) hpos
        rw [Nat.add_zero] at ha
        simp only [altcount] at ha ⊢
        rw [ha]
        simp

/-- The guess loop emits at most one more guess than the cap, and grows the
first slot's alternative count by at most the number of guesses emitted. -/
theorem gmw_loop_bound (ctx : Ctx) :
    ∀ (suggs : List (List Char)) (s : Sentence) (n : Nat), WFs s →
      n ≤ MAX_NUM_SPELL_GUESSES →
      (gmw_loop ctx suggs s n).2 ≤ MAX_NUM_SPELL_GUESSES + 1 ∧
      WFs (gmw_loop ctx suggs s n).1 ∧
      (gmw_loop ctx suggs s n).1.t_start = s.t_start ∧
      n ≤ (gmw_loop ctx suggs s n).2 ∧
      altcount (gmw_loop ctx suggs s n).1 s.t_start
        ≤ altcount s s.t_start + ((gmw_loop ctx suggs s n).2 - n) := by
  intro suggs
  induction suggs with
  | nil =>
    intro s n hwf hn
    refine ⟨by rw [gmw_loop]; omega, hwf, rfl, by rw [gmw_loop], ?_⟩
    rw [gmw_loop]
    show altcount s s.t_start ≤ altcount s s.t_start + (n - n)
    omega
  | cons a rest ih =>
    intro s n hwf hn
    have hstep : ∀ (s2 : Sentence), WFs s2 → s2.t_start = s.t_start →
        altcount s2 s.t_start ≤ altcount s s.t_start + 1 →
        (if MAX_NUM_SPELL_GUESSES < n + 1 then ((s2, n + 1) : Sentence × Nat)
         else gmw_loop ctx rest s2 (n + 1)).2 ≤ MAX_NUM_SPELL_GUESSES + 1 ∧
        WFs (if MAX_NUM_SPELL_GUESSES < n + 1 then ((s2, n + 1) : Sentence × Nat)
         else gmw_loop ctx rest s2 (n + 1)).1 ∧
        (if MAX_NUM_SPELL_GUESSES < n + 1 then ((s2, n + 1) : Sentence × Nat)
         else gmw_loop ctx rest s2 (n + 1)).1.t_start = s.t_start ∧
        n ≤ (if MAX_NUM_SPELL_GUESSES < n + 1 then ((s2, n + 1) : Sentence × Nat)
         else gmw_loop ctx rest s2 (n + 1)).2 ∧
        altcount (if MAX_NUM_SPELL_GUESSES < n + 1 then ((s2, n + 1) : Sentence × Nat)
         else gmw_loop ctx rest s2 (n + 1)).1 s.t_start
          ≤ altcount s s.t_start +
            ((if MAX_NUM_SPELL_GUESSES < n + 1 then ((s2, n + 1) : Sentence × Nat)
              else gmw_loop ctx rest s2 (n + 1)).2 - n) := by
      intro s2 hwf2 hts2 hcnt2
      by_cases hb : MAX_NUM_SPELL_GUESSES < n + 1
      · rw [if_pos hb]
        refine ⟨show n + 1 ≤ MAX_NUM_SPELL_GUESSES + 1 by omega, hwf2, hts2,
          show n ≤ n + 1 by omega, ?_⟩
        show altcount s2 s.t_start ≤ altcount s s.t_start + (n + 1 - n)
        omega
      · rw [if_neg hb]
        obtain ⟨r1, r2, r3, r4, r5⟩ := ih s2 (n + 1) hwf2 (by omega)
        rw [hts2] at r3 r5
        exact ⟨r1, r2, r3, by omega, by omega⟩
    rw [gmw_loop]
    by_cases hsp : a.contains ' '
    · simp only [hsp, if_true]
      obtain ⟨q1, q2, _, _, _, _⟩ :=
        add_alt_preserves ctx s [] (a.splitOn ' ') [] hwf
      exact hstep _ q1 q2 (add_alt_altcount_le ctx s [] (a.splitOn ' ') [] hwf)
    · simp only [hsp, Bool.false_eq_true, if_false]
      by_cases hdl : ctx.dict_lookup a
      · simp only [hdl, if_true]
        obtain ⟨q1, q2, _, _, _, _⟩ := add_alt_preserves ctx s []
          [(a.take (MAX_WORD - 3) ++ ("[~]".toList)).take (MAX_WORD - 1)] [] hwf
        exact hstep _ q1 q2 (add_alt_altcount_le ctx s [] _ [] hwf)
      · simp only [hdl, Bool.false_eq_true, if_false]
        have hb : ¬ (MAX_NUM_SPELL_GUESSES < n) := by omega
        rw [if_neg hb]
        obtain ⟨r1, r2, r3, r4, r5⟩ := ih s n hwf hn
        exact ⟨r1, r2, r3, r4, r5⟩



set_option maxRecDepth 100000 in
/-- Counterexample to C7 as stated: with 62 in-dictionary single-word
suggestions, guess_misspelled_word commits 61 alternatives, exceeding
MAX_NUM_SPELL_GUESSES = 60 (the loop breaks only after num_guesses has
already exceeded the cap). -/
theorem c7_counterexample :
    ¬ (altcount (guess_misspelled_word exCtx7 exEmpty ("zz".toList) false).1 0
        ≤ MAX_NUM_SPELL_GUESSES) := by
  decide

/-- C7 (amended): the number of guesses emitted per token, and hence the
number of alternatives committed by guess_misspelled_word, never exceeds
MAX_NUM_SPELL_GUESSES + 1 = 61. -/
theorem c7_spell_guess_cap (ctx : Ctx) (s : Sentence) (word : List Char) (q : Bool)
    (hwf : s.word.length = s.t_start) (hfresh : s.t_count = 0) :
    (gmw_loop ctx (ctx.spell_suggest word) s 0).2 ≤ MAX_NUM_SPELL_GUESSES + 1 ∧
    altcount (guess_misspelled_word ctx s word q).1 s.t_start
      ≤ MAX_NUM_SPELL_GUESSES + 1 := by
  have hwfs : WFs s := by
    show s.word.length = s.t_start + s.t_count
    omega
  have hcnt0 : altcount s s.t_start = 0 := by
    simp only [altcount, getAlts, List.get?_eq_none.mpr (by omega : s.word.length ≤ s.t_start)]
    rfl
  obtain ⟨r1, r2, r3, r4, r5⟩ :=
    gmw_loop_bound ctx (ctx.spell_suggest word) s 0 hwfs (by omega)
  refine ⟨r1, ?_⟩
  rw [guess_misspelled_word]
  by_cases hn : is_number ctx word
  · rw [if_pos hn]
    simp only [hcnt0] at *
    omega
  · rw [if_neg hn]
    by_cases hsp : ctx.spell_test word
    · rw [if_pos hsp]
      simp only [hcnt0] at *
      omega
    · rw [if_neg hsp]
      by_cases hpos : 0 < (gmw_loop ctx (ctx.spell_suggest word) s 0).2
      · rw [if_pos hpos]
        simp only [altcount_issue]
        omega
      · rw [if_neg hpos]
        show altcount (gmw_loop ctx (ctx.spell_suggest word) s 0).1 s.t_start
          ≤ MAX_NUM_SPELL_GUESSES + 1
        omega

/-- Witness for the amended C7 at the 62-suggestion context. -/
theorem c7_spell_guess_cap_witness :
    altcount (guess_misspelled_word exCtx7 exEmpty ("zz".toList) false).1 0
      ≤ MAX_NUM_SPELL_GUESSES + 1 :=
  (c7_spell_guess_cap exCtx7 exEmpty ("zz".toList) false rfl rfl).2



theorem scanTab_mem : ∀ (l : List (List Char)) (cur t : List Char),
    scanTab l cur = some t → t ∈ l := by
  intro l
  induction l with
  | nil => intro cur t h; exact absurd h (by rw [scanTab]; simp)
  | cons x rest ih =>
    intro cur t h
    rw [scanTab] at h
    by_cases hm : suffixMatch cur x
    · rw [if_pos hm] at h
      cases h
      exact List.mem_cons_self x rest
    · rw [if_neg hm] at h
      exact List.mem_cons_of_mem x (ih cur t h)

theorem sr_scan_punct (ctx : Ctx) (cur : List Char) (swn pu : Bool) (t : List Char)
    (h : sr_scan ctx cur swn pu = SRScan.punct t) : t ∈ ctx.rpunc := by
  rw [sr_scan] at h
  cases hr : scanTab ctx.rpunc cur with
  | some x =>
    rw [hr] at h
    cases h
    exact scanTab_mem ctx.rpunc cur t hr
  | none =>
    rw [hr] at h
    by_cases h0 : ctx.units.length = 0
    · rw [if_pos h0] at h; cases h
    · rw [if_neg h0] at h
      by_cases h1 : swn
      · simp only [h1, Bool.not_true, Bool.false_eq_true, if_false] at h
        by_cases h2 : pu
        · rw [if_pos h2] at h; cases h
        · rw [if_neg h2] at h
          cases hu : scanTab ctx.units cur with
          | some y => rw [hu] at h; cases h
          | none => rw [hu] at h; cases h
      · simp only [Bool.not_eq_true] at h1
        simp only [h1, Bool.not_false, if_true] at h
        cases h

theorem sr_scan_unit (ctx : Ctx) (cur : List Char) (swn pu : Bool) (t : List Char)
    (h : sr_scan ctx cur swn pu = SRScan.unit t) :
    t ∈ ctx.units ∧ swn = true ∧ pu = false := by
  rw [sr_scan] at h
  cases hr : scanTab ctx.rpunc cur with
  | some x => rw [hr] at h; cases h
  | none =>
    rw [hr] at h
    by_cases h0 : ctx.units.length = 0
    · rw [if_pos h0] at h; cases h
    · rw [if_neg h0] at h
      by_cases h1 : swn
      · simp only [h1, Bool.not_true, Bool.false_eq_true, if_false] at h
        by_cases h2 : pu
        · rw [if_pos h2] at h; cases h
        · rw [if_neg h2] at h
          cases hu : scanTab ctx.units cur with
          | some y =>
            rw [hu] at h
            cases h
            exact ⟨scanTab_mem ctx.units cur t hu, h1, by simpa using h2⟩
          | none => rw [hu] at h; cases h
      · simp only [Bool.not_eq_true] at h1
        simp only [h1, Bool.not_false, if_true] at h
        cases h

/-- The chain relation "not two units in a row" on recorded pieces. -/
theorem sr_loop_inv (ctx : Ctx) (w : List Char) (swn : Bool) :
    ∀ (fuel : Nat) (st : SRState),
      st.prevUnit = ((st.pieces.getLast?.map Prod.fst).getD false) →
      (st.prevUnit = true → swn = true) →
      (∀ p, p ∈ st.pieces → p.1 = true → swn = true) →
      List.Chain' (fun a b : Bool × List Char => ¬(a.1 = true ∧ b.1 = true)) st.pieces →
      (∀ p, p ∈ st.pieces → p.2 ∈ ctx.rpunc ++ ctx.units) →
      ((sr_loop ctx w swn fuel st).prevUnit
          = (((sr_loop ctx w swn fuel st).pieces.getLast?.map Prod.fst).getD false)) ∧
      ((sr_loop ctx w swn fuel st).prevUnit = true → swn = true) ∧
      (∀ p, p ∈ (sr_loop ctx w swn fuel st).pieces → p.1 = true → swn = true) ∧
      List.Chain' (fun a b : Bool × List Char => ¬(a.1 = true ∧ b.1 = true))
        (sr_loop ctx w swn fuel st).pieces ∧
      (∀ p, p ∈ (sr_loop ctx w swn fuel st).pieces → p.2 ∈ ctx.rpunc ++ ctx.units) := by
  intro fuel
  induction fuel with
  | zero => intro st h1 h2 h3 h4 h5; exact ⟨h1, h2, h3, h4, h5⟩
  | succ fuel ih =>
    intro st h1 h2 h3 h4 h5
    rw [sr_loop]
    by_cases hz : st.temp_wend = 0
    · rw [if_pos hz]
      exact ⟨h1, h2, h3, h4, h5⟩
    · rw [if_neg hz]
      by_cases hd : ctx.in_dict ((w.take st.temp_wend).take MAX_WORD)
      · simp only [hd, if_true]
        exact ⟨h1, h2, h3, h4, h5⟩
      · simp only [hd, Bool.false_eq_true, if_false]
        cases hs : sr_scan ctx (w.take st.temp_wend) swn st.prevUnit with
        | stop => exact ⟨h1, h2, h3, h4, h5⟩
        | punct t =>
          have hmem := sr_scan_punct ctx _ swn st.prevUnit t hs
          apply ih
          · simp only [List.getLast?_concat, Option.map_some', Option.getD_some]
          · intro hcontra
            exact absurd hcontra (by simp)
          · intro p hp hu
            rcases List.mem_append.mp hp with hl | hr
            · exact h3 p hl hu
            · simp only [List.mem_singleton] at hr
              subst hr
              simp at hu
          · rw [List.chain'_append]
            refine ⟨h4, List.chain'_singleton _, ?_⟩
            intro x _ y hy
            simp only [List.head?_cons, Option.mem_def, Option.some.injEq] at hy
            subst hy
            simp
          · intro p hp
            rcases List.mem_append.mp hp with hl | hr
            · exact h5 p hl
            · simp only [List.mem_singleton] at hr
              subst hr
              exact List.mem_append.mpr (Or.inl hmem)
        | unit t =>
          obtain ⟨hmem, hswn, hpu⟩ := sr_scan_unit ctx _ swn st.prevUnit t hs
          apply ih
          · simp only [List.getLast?_concat, Option.map_some', Option.getD_some]
          · intro _
            exact hswn
          · intro p hp hu
            rcases List.mem_append.mp hp with hl | hr
            · exact h3 p hl hu
            · exact hswn
          · rw [List.chain'_append]
            refine ⟨h4, List.chain'_singleton _, ?_⟩
            intro x hx y hy
            simp only [List.head?_cons, Option.mem_def, Option.some.injEq] at hy
            subst hy
            intro hcon
            have hlast : ((st.pieces.getLast?.map Prod.fst).getD false) = true := by
              rw [Option.mem_def] at hx
              rw [hx]
              simp only [Option.map_some', Option.getD_some]
              exact hcon.1
            rw [h1, hlast] at hpu
            cases hpu
          · intro p hp
            rcases List.mem_append.mp hp with hl | hr
            · exact h5 p hl
            · simp only [List.mem_singleton] at hr
              subst hr
              exact List.mem_append.mpr (Or.inr hmem)

/-- strip_right invariants: every recorded piece, unit-tagged only when the
token starts with a digit, no two consecutive unit strips, and every piece
drawn from the RPUNC/UNITS tables. -/
theorem strip_right_pieces (ctx : Ctx) (w : List Char) :
    (∀ p, p ∈ (strip_right ctx w).r_stripped → p.1 = true →
      is_utf8_digit ctx w = true) ∧
    List.Chain' (fun a b : Bool × List Char => ¬(a.1 = true ∧ b.1 = true))
      (strip_right ctx w).r_stripped ∧
    (∀ p, p ∈ (strip_right ctx w).r_stripped → p.2 ∈ ctx.rpunc ++ ctx.units) := by
  obtain ⟨g1, g2, g3, g4, g5⟩ := sr_loop_inv ctx w (is_utf8_digit ctx w) MAX_STRIP
    ⟨w.length, w.length, 0, [], false, false⟩ rfl (by simp) (by simp) (by simp) (by simp)
  rw [strip_right]
  split
  · exact ⟨g3, g4, g5⟩
  · exact ⟨g3, g4, g5⟩



/-- C4: a UNITS entry is stripped only when the raw token begins with a
digit, and never immediately after another unit strip; in particular
"Delft" with "ft" in UNITS has nothing stripped. -/
theorem c4_unit_strip_gating (ctx : Ctx) (w : List Char) :
    (∀ p, p ∈ (strip_right ctx w).r_stripped → p.1 = true →
      is_utf8_digit ctx w = true) ∧
    List.Chain' (fun a b : Bool × List Char => ¬(a.1 = true ∧ b.1 = true))
      (strip_right ctx w).r_stripped ∧
    strip_right { exCtx with units := ["ft".toList] } ("Delft".toList)
      = ⟨5, 0, [], false⟩ :=
  ⟨(strip_right_pieces ctx w).1, (strip_right_pieces ctx w).2.1, by decide⟩



theorem strip_left_nil (ctx : Ctx) (s : Sentence) (w : List Char) (q : Bool)
    (h : ctx.lpunc = []) : strip_left ctx s w q = (s, w) := by
  rw [strip_left, sl_loop, h]
  rfl

theorem suffix_split_nil (ctx : Ctx) (s : Sentence) (w : List Char)
    (h1 : ctx.suf = []) (h2 : ctx.pre = []) : suffix_split ctx s w = (s, false) := by
  rw [suffix_split, h1, pfx_loop, h2]
  rfl

theorem mpre_split_nil (ctx : Ctx) (s : Sentence) (w : List Char)
    (h : ctx.mpre = []) : mpre_split ctx s w = (s, false) := by
  rw [mpre_split, h]
  rfl

theorem c3_max_strip_unitary (ctx : Ctx) (s : Sentence) (w0 : List Char) (q : Bool)
    (hfresh : s.t_count = 0)
    (hlp : ctx.lpunc = []) (hsuf : ctx.suf = []) (hpre : ctx.pre = [])
    (hmpre : ctx.mpre = []) (hpar : ctx.test_parallel_regex = false)
    (hdict : ∀ x, ctx.dict_lookup x = false)
    (hregex : ∀ x, ctx.regex_match x = none)
    (hw0 : ctx.in_dict (w0.take MAX_WORD) = false)
    (hne : w0 ≠ [])
    (hstrip : MAX_STRIP ≤ (strip_right ctx w0).n_r_stripped) :
    separate_word ctx s w0 q
      = issue_sentence_word ctx s ((w0.take (strip_right ctx w0).wend).take MAX_WORD) q := by
  rw [separate_word]
  rw [if_neg (by rw [hw0]; simp)]
  rw [strip_left_nil ctx s w0 q hlp]
  rw [if_neg (by simpa using hne)]
  rw [separate_word_main, separate_word_core]
  simp only [hdict, Bool.false_eq_true, if_false,
    suffix_split_nil ctx _ _ hsuf hpre, mpre_split_nil ctx _ _ hmpre,
    ite_self, Bool.or_false, Bool.false_or, hregex, Option.isSome_none,
    Bool.and_false, hpar, if_pos hstrip]
  simp only [Bool.not_true, Bool.false_and, Bool.false_eq_true, if_false]
  rw [issue_alt_zero s _ q hfresh]
  simp only [Bool.false_eq_true, if_false, List.take_zero, List.reverse_nil, List.foldl_nil]


/-- Counterexample to C3 as stated: for the token "a" + 11 periods (with
"." in RPUNC and nothing in the dictionary), the right strip hits
MAX_STRIP and separate_word issues the post-strip core "a." as the single
unknown word, not the whole original raw token. -/
theorem c3_counterexample :
    MAX_STRIP ≤ (strip_right exCtx3 ("a...........".toList)).n_r_stripped ∧
    (separate_word exCtx3 exEmpty ("a...........".toList) false).word
      = [⟨["a.".toList], some ("a.".toList), false⟩] ∧
    ("a.".toList) ≠ ("a...........".toList) := by
  refine ⟨by decide, by decide, by decide⟩

/-- Witness for the amended C3 at the counterexample input. -/
theorem c3_max_strip_unitary_witness :
    separate_word exCtx3 exEmpty ("a...........".toList) false
      = issue_sentence_word exCtx3 exEmpty
          ((("a...........".toList).take
            (strip_right exCtx3 ("a...........".toList)).wend).take MAX_WORD) false :=
  c3_max_strip_unitary exCtx3 exEmpty ("a...........".toList) false rfl rfl rfl rfl rfl
    rfl (fun x => rfl) (fun x => rfl) rfl (by decide) (by decide)


/-- Generic preservation through a fold over a (Sentence x Bool)
accumulator. -/
theorem foldl_invs {α : Type} (f : (Sentence × Bool) → α → (Sentence × Bool))
    (hf : ∀ acc x, InvS acc.1 → InvS (f acc x).1 ∧ Extends acc.1 (f acc x).1) :
    ∀ (l : List α) (acc : Sentence × Bool), InvS acc.1 →
      InvS (l.foldl f acc).1 ∧ Extends acc.1 (l.foldl f acc).1 := by
  intro l
  induction l with
  | nil => intro acc h; exact ⟨h, Extends.refl _⟩
  | cons x rest ih =>
    intro acc h
    obtain ⟨h1, h2⟩ := hf acc x h
    obtain ⟨h3, h4⟩ := ih (f acc x) h1
    exact ⟨h3, Extends.trans h2 h4⟩

theorem aaws_invs (ctx : Ctx) (s : Sentence) (pfo : Option (List Char)) (wd : List Char)
    (sfo : Option (List Char)) (hinv : InvS s) :
    InvS (add_alternative_with_subscr ctx s pfo wd sfo).1 ∧
    Extends s (add_alternative_with_subscr ctx s pfo wd sfo).1 := by
  rw [add_alternative_with_subscr]
  by_cases h0 : ctx.stemsubscr.length = 0
  · rw [if_pos h0]
    exact add_alt_invs ctx s pfo.toList [wd] sfo.toList hinv
  · rw [if_neg h0]
    apply foldl_invs
    · intro acc x hacc
      by_cases hd : ctx.dict_lookup (stem_candidate wd x)
      · simp only [hd, if_true]
        exact add_alt_invs ctx acc.1 pfo.toList [stem_candidate wd x] [sfo.getD []] hacc
      · simp only [hd, Bool.false_eq_true, if_false]
        exact ⟨hacc, Extends.refl _⟩
    · exact hinv

theorem pfx_loop_invs (ctx : Ctx) (w : List Char) (len : Nat) (sfo : Option (List Char))
    (acc : Sentence × Bool) (hinv : InvS acc.1) :
    InvS (pfx_loop ctx w len sfo acc).1 ∧ Extends acc.1 (pfx_loop ctx w len sfo acc).1 := by
  rw [pfx_loop]
  apply foldl_invs
  · intro acc2 p hacc
    by_cases hm : w.take p.length == p
    · simp only [hm, if_true]
      by_cases hd : ctx.dict_lookup ((w.drop p.length).take (min (w.length - len - p.length) MAX_WORD))
      · simp only [hd, if_true]
        obtain ⟨h1, h2⟩ := aaws_invs ctx acc2.1 (some p) _ sfo hacc
        exact ⟨h1, h2⟩
      · simp only [hd, Bool.false_eq_true, if_false]
        exact ⟨hacc, Extends.refl _⟩
    · simp only [Bool.not_eq_true] at hm
      simp only [hm, Bool.false_eq_true, if_false]
      exact ⟨hacc, Extends.refl _⟩
  · exact hinv

theorem suffix_step_invs (ctx : Ctx) (w : List Char) (acc : Sentence × Bool)
    (sfx : List Char) (hinv : InvS acc.1) :
    InvS (suffix_step ctx w acc sfx).1 ∧ Extends acc.1 (suffix_step ctx w acc sfx).1 := by
  rw [suffix_step]
  by_cases hlen : w.length < sfx.length
  · rw [if_pos hlen]
    exact ⟨hinv, Extends.refl _⟩
  · rw [if_neg hlen]
    by_cases hm : w.drop (w.length - sfx.length) == sfx
    · simp only [hm, if_true]
      by_cases hd : ctx.in_dict ((w.take (w.length - sfx.length)).take MAX_WORD)
      · simp only [hd, if_true]
        obtain ⟨h1, h2⟩ := aaws_invs ctx acc.1 none
          ((w.take (w.length - sfx.length)).take MAX_WORD) (some sfx) hinv
        obtain ⟨h3, h4⟩ := pfx_loop_invs ctx w sfx.length (some sfx)
          ((add_alternative_with_subscr ctx acc.1 none
              ((w.take (w.length - sfx.length)).take MAX_WORD) (some sfx)).1,
            acc.2 || (add_alternative_with_subscr ctx acc.1 none
              ((w.take (w.length - sfx.length)).take MAX_WORD) (some sfx)).2) h1
        exact ⟨h3, Extends.trans h2 h4⟩
      · simp only [hd, Bool.false_eq_true, if_false]
        exact pfx_loop_invs ctx w sfx.length (some sfx) acc hinv
    · simp only [Bool.not_eq_true] at hm
      simp only [hm, Bool.false_eq_true, if_false]
      exact pfx_loop_invs ctx w sfx.length (some sfx) acc hinv

theorem suffix_split_invs (ctx : Ctx) (s : Sentence) (w : List Char) (hinv : InvS s) :
    InvS (suffix_split ctx s w).1 ∧ Extends s (suffix_split ctx s w).1 := by
  rw [suffix_split]
  have hfold := foldl_invs (suffix_step ctx w)
    (fun acc x hacc => suffix_step_invs ctx w acc x hacc) ctx.suf (s, false) hinv
  obtain ⟨h1, h2⟩ := hfold
  obtain ⟨h3, h4⟩ := pfx_loop_invs ctx w 0 none _ h1
  exact ⟨h3, Extends.trans h2 h4⟩

theorem mp_body_invs (ctx : Ctx) (st : MPState) (i : Nat) (p nw : List Char)
    (hinv : InvS st.sent) :
    (match mp_body ctx st i p nw with
     | MPOut.exit st2 => InvS st2.sent ∧ Extends st.sent st2.sent
     | MPOut.next st2 _ => InvS st2.sent ∧ Extends st.sent st2.sent) := by
  rw [mp_body]
  by_cases hz : st.w.length - p.length = 0
  · simp only [hz, if_pos rfl]
    exact add_alt_invs ctx st.sent (st.stack ++ [p]) [] [] hinv
  · rw [if_neg hz]
    by_cases hd : ctx.in_dict nw
    · simp only [hd, if_true]
      exact add_alt_invs ctx st.sent (st.stack ++ [p]) [nw] [] hinv
    · simp only [hd, Bool.false_eq_true, if_false]
      exact ⟨hinv, Extends.refl _⟩

theorem mp_inner_invs (ctx : Ctx) (st : MPState) (hinv : InvS st.sent) :
    ∀ (fuelI i : Nat),
      (match mp_inner ctx st fuelI i with
       | MPOut.exit st2 => InvS st2.sent ∧ Extends st.sent st2.sent
       | MPOut.next st2 _ => InvS st2.sent ∧ Extends st.sent st2.sent) := by
  intro fuelI
  induction fuelI with
  | zero =>
    intro i
    rw [mp_inner]
    exact ⟨hinv, Extends.refl _⟩
  | succ fuelI ih =>
    intro i
    rw [mp_inner]
    by_cases hlt : i < ctx.mpre.length
    · rw [if_pos hlt]
      by_cases hseen : (st.pseen.get? i).getD false
      · simp only [hseen, if_true]
        exact ih (i + 1)
      · simp only [hseen, Bool.false_eq_true, if_false]
        by_cases hvav : decide (0 < st.stack.length) && isVav ((ctx.mpre.get? i).getD [])
            && isVav st.w
        · simp only [hvav, if_true]
          exact ih (i + 1)
        · simp only [hvav, Bool.false_eq_true, if_false]
          by_cases hm : st.w.take ((ctx.mpre.get? i).getD []).length == (ctx.mpre.get? i).getD []
          · simp only [hm, if_true]
            by_cases hv2 : !isVav ((ctx.mpre.get? i).getD [])
                && isVav (st.w.drop ((ctx.mpre.get? i).getD []).length)
            · simp only [hv2, if_true]
              by_cases hv3 : !isVav ((st.w.drop ((ctx.mpre.get? i).getD []).length).drop 1)
              · simp only [hv3, if_true]
                exact ⟨hinv, Extends.refl _⟩
              · simp only [hv3, Bool.false_eq_true, if_false]
                exact mp_body_invs ctx st i _ _ hinv
            · simp only [hv2, Bool.false_eq_true, if_false]
              exact mp_body_invs ctx st i _ _ hinv
          · simp only [Bool.not_eq_true] at hm
            simp only [hm, Bool.false_eq_true, if_false]
            exact ih (i + 1)
    · rw [if_neg hlt]
      exact ⟨hinv, Extends.refl _⟩

theorem mp_loop_invs (ctx : Ctx) :
    ∀ (fuel : Nat) (st : MPState), InvS st.sent →
      InvS (mp_loop ctx fuel st).1 ∧ Extends st.sent (mp_loop ctx fuel st).1 := by
  intro fuel
  induction fuel with
  | zero => intro st h; exact ⟨h, Extends.refl _⟩
  | succ fuel ih =>
    intro st h
    rw [mp_loop]
    have hi := mp_inner_invs ctx st h ctx.mpre.length 0
    cases hm : mp_inner ctx st ctx.mpre.length 0 with
    | exit st2 =>
      rw [hm] at hi
      exact hi
    | next st2 cont =>
      rw [hm] at hi
      obtain ⟨h1, h2⟩ := hi
      cases cont with
      | true =>
        obtain ⟨h3, h4⟩ := ih st2 h1
        exact ⟨h3, Extends.trans h2 h4⟩
      | false =>
        exact ⟨h1, h2⟩

theorem mpre_split_invs (ctx : Ctx) (s : Sentence) (w : List Char) (hinv : InvS s) :
    InvS (mpre_split ctx s w).1 ∧ Extends s (mpre_split ctx s w).1 := by
  rw [mpre_split]
  by_cases h0 : ctx.mpre.length = 0
  · rw [if_pos h0]
    exact ⟨hinv, Extends.refl _⟩
  · rw [if_neg h0]
    exact mp_loop_invs ctx (HEB_PRENUM_MAX + 1) _ hinv

theorem gmw_loop_invs (ctx : Ctx) :
    ∀ (suggs : List (List Char)) (s : Sentence) (n : Nat), InvS s →
      InvS (gmw_loop ctx suggs s n).1 ∧ Extends s (gmw_loop ctx suggs s n).1 ∧
      n ≤ (gmw_loop ctx suggs s n).2 ∧
      ((gmw_loop ctx suggs s n).2 = n → (gmw_loop ctx suggs s n).1 = s) := by
  intro suggs
  induction suggs with
  | nil =>
    intro s n h
    rw [gmw_loop]
    exact ⟨h, Extends.refl _, Nat.le_refl _, fun _ => rfl⟩
  | cons a rest ih =>
    intro s n h
    rw [gmw_loop]
    have hstep : ∀ (s2 : Sentence), InvS s2 → Extends s s2 →
        InvS (if MAX_NUM_SPELL_GUESSES < n + 1 then ((s2, n + 1) : Sentence × Nat)
          else gmw_loop ctx rest s2 (n + 1)).1 ∧
        Extends s (if MAX_NUM_SPELL_GUESSES < n + 1 then ((s2, n + 1) : Sentence × Nat)
          else gmw_loop ctx rest s2 (n + 1)).1 ∧
        n ≤ (if MAX_NUM_SPELL_GUESSES < n + 1 then ((s2, n + 1) : Sentence × Nat)
          else gmw_loop ctx rest s2 (n + 1)).2 ∧
        ((if MAX_NUM_SPELL_GUESSES < n + 1 then ((s2, n + 1) : Sentence × Nat)
          else gmw_loop ctx rest s2 (n + 1)).2 = n →
          (if MAX_NUM_SPELL_GUESSES < n + 1 then ((s2, n + 1) : Sentence × Nat)
            else gmw_loop ctx rest s2 (n + 1)).1 = s) := by
      intro s2 h1 h2
      by_cases hb : MAX_NUM_SPELL_GUESSES < n + 1
      · rw [if_pos hb]
        exact ⟨h1, h2, show n ≤ n + 1 by omega, fun hc => absurd hc (by show ¬ (n+1 = n); omega)⟩
      · rw [if_neg hb]
        obtain ⟨r1, r2, r3, r4⟩ := ih s2 (n + 1) h1
        refine ⟨r1, Extends.trans h2 r2, by omega, ?_⟩
        intro hc
        omega
    by_cases hsp : a.contains ' '
    · simp only [hsp, if_true]
      obtain ⟨q1, q2⟩ := add_alt_invs ctx s [] (a.splitOn ' ') [] h
      exact hstep _ q1 q2
    · simp only [hsp, Bool.false_eq_true, if_false]
      by_cases hdl : ctx.dict_lookup a
      · simp only [hdl, if_true]
        obtain ⟨q1, q2⟩ := add_alt_invs ctx s []
          [(a.take (MAX_WORD - 3) ++ ("[~]".toList)).take (MAX_WORD - 1)] [] h
        exact hstep _ q1 q2
      · simp only [hdl, Bool.false_eq_true, if_false]
        by_cases hb : MAX_NUM_SPELL_GUESSES < n
        · rw [if_pos hb]
          exact ⟨h, Extends.refl _, Nat.le_refl _, fun _ => rfl⟩
        · rw [if_neg hb]
          exact ih s n h

theorem gmw_invs (ctx : Ctx) (s : Sentence) (word : List Char) (q : Bool)
    (hinv : InvS s) :
    InvS (guess_misspelled_word ctx s word q).1 ∧
    Extends s (guess_misspelled_word ctx s word q).1 ∧
    ((guess_misspelled_word ctx s word q).2 = true →
      (guess_misspelled_word ctx s word q).1.t_count = 0) ∧
    ((guess_misspelled_word ctx s word q).2 = false →
      (guess_misspelled_word ctx s word q).1 = s) := by
  rw [guess_misspelled_word]
  by_cases hn : is_number ctx word
  · rw [if_pos hn]
    exact ⟨hinv, Extends.refl _, fun h => Bool.noConfusion h, fun _ => rfl⟩
  · rw [if_neg hn]
    by_cases hsp : ctx.spell_test word
    · rw [if_pos hsp]
      exact ⟨hinv, Extends.refl _, fun h => Bool.noConfusion h, fun _ => rfl⟩
    · rw [if_neg hsp]
      obtain ⟨r1, r2, r3, r4⟩ := gmw_loop_invs ctx (ctx.spell_suggest word) s 0 hinv
      by_cases hpos : 0 < (gmw_loop ctx (ctx.spell_suggest word) s 0).2
      · rw [if_pos hpos]
        obtain ⟨c1, e1⟩ := issue_alt_invs (gmw_loop ctx (ctx.spell_suggest word) s 0).1
          word q r1
        exact ⟨c1.1, Extends.trans r2 e1, fun _ => c1.2, fun h => Bool.noConfusion h⟩
      · rw [if_neg hpos]
        have h0 : (gmw_loop ctx (ctx.spell_suggest word) s 0).2 = 0 := by omega
        rw [r4 h0]
        exact ⟨hinv, Extends.refl _, fun h => Bool.noConfusion h, fun _ => rfl⟩

theorem sl_loop_invs (ctx : Ctx) :
    ∀ (fuel : Nat) (s : Sentence) (w : List Char) (q : Bool), InvS s →
      InvS (sl_loop ctx fuel s w q).1 ∧ Extends s (sl_loop ctx fuel s w q).1 := by
  intro fuel
  induction fuel with
  | zero => intro s w q h; exact ⟨h, Extends.refl _⟩
  | succ fuel ih =>
    intro s w q h
    rw [sl_loop]
    cases hs : sl_scan ctx.lpunc w with
    | none => exact ⟨h, Extends.refl _⟩
    | some t =>
      obtain ⟨c1, e1⟩ := issue_sentence_word_invs ctx s t q h
      obtain ⟨h1, h2⟩ := ih (issue_sentence_word ctx s t q) (w.drop t.length) q c1.1
      exact ⟨h1, Extends.trans e1 h2⟩


theorem separate_word_core_invs (ctx : Ctx) (s1 : Sentence) (w1 : List Char)
    (wendLen : Nat) (n_r : Nat) (qf : Bool) (hinv : InvS s1) :
    Committed (separate_word_core ctx s1 w1 wendLen n_r qf) ∧
    Extends s1 (separate_word_core ctx s1 w1 wendLen n_r qf) := by
  let word := (w1.take wendLen).take MAX_WORD
  let wdict1 := ctx.dict_lookup word
  let s2 := if wdict1 then add_alternative ctx s1 [] [word] [] else s1
  let r3 := suffix_split ctx s2 (w1.take wendLen)
  let cond1 := (is_capitalizable ctx r3.1 r3.1.length || qf) && is_utf8_upper ctx word
  let r4 := if cond1 then suffix_split ctx r3.1 (downcase ctx word) else (r3.1, false)
  let dc1 : List Char := if cond1 then downcase ctx word else []
  let r5 := mpre_split ctx r4.1 word
  let word_can_split := r3.2 || r4.2 || r5.2
  let wdict2 := if MAX_STRIP ≤ n_r then true else wdict1
  let s6a :=
    if !word_can_split && (ctx.regex_match word).isSome then
      add_alternative ctx r5.1 [] [word] []
    else r5.1
  let dcb := downcase ctx word
  let ucr :=
    if is_utf8_upper ctx word then
      if is_capitalizable ctx s6a s6a.length || qf then
        if ctx.dict_lookup dcb then (add_alternative ctx s6a [] [dcb] [], true, dcb)
        else (s6a, wdict2, dc1)
      else (s6a, wdict2, dc1)
    else (r5.1, wdict2, dc1)
  let s6 := ucr.1
  let wdict4 := ucr.2.1 || word_can_split
  let base := if !ucr.2.2.isEmpty then ucr.2.2 else word
  let wpr :=
    if ctx.test_parallels_regex then
      (base.take (MAX_WORD - 3) ++ ("[!]".toList)).take (MAX_WORD - 1)
    else word
  let r7 :=
    if !wdict4 || ctx.test_parallel_regex then
      if (ctx.regex_match wpr).isSome then (add_alternative ctx s6 [] [wpr] [], true)
      else (s6, wdict4)
    else (s6, wdict4)
  let r8 :=
    if !r7.2 && !is_utf8_upper ctx word && ctx.use_spell_guess && ctx.spell_checker then
      guess_misspelled_word ctx r7.1 word qf
    else (r7.1, false)
  let r9 := if r8.2 then (true, r8.1) else issue_alternatives r8.1 word qf
  show Committed (if r9.1 then r9.2 else issue_sentence_word ctx r9.2 word qf) ∧
    Extends s1 (if r9.1 then r9.2 else issue_sentence_word ctx r9.2 word qf)
  have h2 : InvS s2 ∧ Extends s1 s2 := by
    unfold s2
    split
    · exact add_alt_invs ctx s1 [] [word] [] hinv
    · exact ⟨hinv, Extends.refl s1⟩
  have h3 : InvS r3.1 ∧ Extends s2 r3.1 :=
    suffix_split_invs ctx s2 (w1.take wendLen) h2.1
  have h4 : InvS r4.1 ∧ Extends r3.1 r4.1 := by
    unfold r4
    split
    · exact suffix_split_invs ctx r3.1 (downcase ctx word) h3.1
    · exact ⟨h3.1, Extends.refl _⟩
  have h5 : InvS r5.1 ∧ Extends r4.1 r5.1 :=
    mpre_split_invs ctx r4.1 word h4.1
  have h6a : InvS s6a ∧ Extends r5.1 s6a := by
    unfold s6a
    split
    · exact add_alt_invs ctx r5.1 [] [word] [] h5.1
    · exact ⟨h5.1, Extends.refl _⟩
  have hucr : InvS ucr.1 ∧ Extends r5.1 ucr.1 := by
    unfold ucr
    split
    · split
      · split
        · obtain ⟨a1, a2⟩ := add_alt_invs ctx s6a [] [dcb] [] h6a.1
          exact ⟨a1, Extends.trans h6a.2 a2⟩
        · exact h6a
      · exact h6a
    · exact ⟨h5.1, Extends.refl _⟩
  have h7 : InvS r7.1 ∧ Extends ucr.1 r7.1 := by
    unfold r7
    split
    · split
      · exact add_alt_invs ctx s6 [] [wpr] [] hucr.1
      · exact ⟨hucr.1, Extends.refl _⟩
    · exact ⟨hucr.1, Extends.refl _⟩
  have h8 : InvS r8.1 ∧ Extends r7.1 r8.1 ∧ (r8.2 = true → r8.1.t_count = 0) := by
    unfold r8
    split
    · obtain ⟨g1, g2, g3, _⟩ := gmw_invs ctx r7.1 word qf h7.1
      exact ⟨g1, g2, g3⟩
    · exact ⟨h7.1, Extends.refl _, fun h => Bool.noConfusion h⟩
  have h9 : Committed r9.2 ∧ Extends r8.1 r9.2 := by
    unfold r9
    split
    next hc =>
      exact ⟨⟨h8.1, h8.2.2 hc⟩, Extends.refl _⟩
    next hc =>
      exact issue_alt_invs r8.1 word qf h8.1
  have hext : Extends s1 r9.2 :=
    Extends.trans h2.2 (Extends.trans h3.2 (Extends.trans h4.2 (Extends.trans h5.2
      (Extends.trans hucr.2 (Extends.trans h7.2 (Extends.trans h8.2.1 h9.2))))))
  split
  · exact ⟨h9.1, hext⟩
  · obtain ⟨c1, e1⟩ := issue_sentence_word_invs ctx r9.2 word qf h9.1.1
    exact ⟨c1, Extends.trans hext e1⟩


theorem scanTab_suffix : ∀ (l : List (List Char)) (cur t : List Char),
    scanTab l cur = some t →
    t.length ≤ cur.length ∧ cur.take (cur.length - t.length) ++ t = cur := by
  intro l
  induction l with
  | nil => intro cur t h; exact absurd h (by rw [scanTab]; simp)
  | cons x rest ih =>
    intro cur t h
    rw [scanTab] at h
    by_cases hm : suffixMatch cur x
    · rw [if_pos hm] at h
      cases h
      rw [suffixMatch] at hm
      simp only [Bool.and_eq_true, decide_eq_true_eq, beq_iff_eq] at hm
      refine ⟨hm.1, ?_⟩
      conv_rhs => rw [← List.take_append_drop (cur.length - x.length) cur]
      rw [hm.2]
    · rw [if_neg hm] at h
      exact ih cur t h

theorem sr_scan_suffix (ctx : Ctx) (cur : List Char) (swn pu : Bool) (t : List Char)
    (h : sr_scan ctx cur swn pu = SRScan.punct t ∨ sr_scan ctx cur swn pu = SRScan.unit t) :
    t.length ≤ cur.length ∧ cur.take (cur.length - t.length) ++ t = cur := by
  rw [sr_scan] at h
  cases hr : scanTab ctx.rpunc cur with
  | some x =>
    rw [hr] at h
    rcases h with h | h
    · cases h
      exact scanTab_suffix ctx.rpunc cur t hr
    · cases h
  | none =>
    rw [hr] at h
    by_cases h0 : ctx.units.length = 0
    · rw [if_pos h0] at h; rcases h with h | h <;> cases h
    · rw [if_neg h0] at h
      by_cases h1 : swn
      · simp only [h1, Bool.not_true, Bool.false_eq_true, if_false] at h
        by_cases h2 : pu
        · rw [if_pos h2] at h; rcases h with h | h <;> cases h
        · rw [if_neg h2] at h
          cases hu : scanTab ctx.units cur with
          | some y =>
            rw [hu] at h
            rcases h with h | h
            · cases h
            · cases h
              exact scanTab_suffix ctx.units cur t hu
          | none => rw [hu] at h; rcases h with h | h <;> cases h
      · simp only [Bool.not_eq_true] at h1
        simp only [h1, Bool.not_false, if_true] at h
        rcases h with h | h <;> cases h

theorem sr_text_inv (ctx : Ctx) (w : List Char) (swn : Bool) :
    ∀ (fuel : Nat) (st : SRState),
      st.temp_wend ≤ st.wend →
      st.wend ≤ w.length →
      st.n_committed ≤ st.pieces.length →
      w.take st.temp_wend ++ ((st.pieces.map Prod.snd).reverse).flatten = w →
      w.take st.wend ++ (((st.pieces.take st.n_committed).map Prod.snd).reverse).flatten = w →
      (sr_loop ctx w swn fuel st).temp_wend ≤ (sr_loop ctx w swn fuel st).wend ∧
      (sr_loop ctx w swn fuel st).wend ≤ w.length ∧
      (sr_loop ctx w swn fuel st).n_committed ≤ (sr_loop ctx w swn fuel st).pieces.length ∧
      w.take (sr_loop ctx w swn fuel st).temp_wend
        ++ (((sr_loop ctx w swn fuel st).pieces.map Prod.snd).reverse).flatten = w ∧
      w.take (sr_loop ctx w swn fuel st).wend
        ++ ((((sr_loop ctx w swn fuel st).pieces.take
              (sr_loop ctx w swn fuel st).n_committed).map Prod.snd).reverse).flatten = w := by
  intro fuel
  induction fuel with
  | zero => intro st a b c d e; exact ⟨a, b, c, d, e⟩
  | succ fuel ih =>
    intro st a b c d e
    rw [sr_loop]
    by_cases hz : st.temp_wend = 0
    · rw [if_pos hz]; exact ⟨a, b, c, d, e⟩
    · rw [if_neg hz]
      by_cases hd : ctx.in_dict ((w.take st.temp_wend).take MAX_WORD)
      · simp only [hd, if_true]
        exact ⟨a, b, c, d, e⟩
      · simp only [hd, Bool.false_eq_true, if_false]
        cases hs : sr_scan ctx (w.take st.temp_wend) swn st.prevUnit with
        | stop => exact ⟨a, b, c, d, e⟩
        | punct t =>
          have hsfx := sr_scan_suffix ctx (w.take st.temp_wend) swn st.prevUnit t (Or.inl hs)
          have hlen : (w.take st.temp_wend).length = st.temp_wend := by
            rw [List.length_take]
            omega
          have hkey : w.take (st.temp_wend - t.length) ++ t = w.take st.temp_wend := by
            have h2 := hsfx.2
            rw [hlen, List.take_take, min_eq_left (Nat.sub_le _ _)] at h2
            exact h2
          apply ih
          · exact Nat.sub_le _ _
          · show st.temp_wend ≤ w.length
            omega
          · show st.pieces.length ≤ (st.pieces ++ [(false, t)]).length
            rw [List.length_append]
            omega
          · show w.take (st.temp_wend - t.length)
              ++ (((st.pieces ++ [(false, t)]).map Prod.snd).reverse).flatten = w
            have haux : (((st.pieces ++ [(false, t)]).map Prod.snd).reverse).flatten
                = t ++ ((st.pieces.map Prod.snd).reverse).flatten := by
              simp
            rw [haux, ← List.append_assoc, hkey]
            exact d
          · show w.take st.temp_wend
              ++ ((((st.pieces ++ [(false, t)]).take st.pieces.length).map
                    Prod.snd).reverse).flatten = w
            rw [List.take_left]
            exact d
        | unit t =>
          have hsfx := sr_scan_suffix ctx (w.take st.temp_wend) swn st.prevUnit t (Or.inr hs)
          have hlen : (w.take st.temp_wend).length = st.temp_wend := by
            rw [List.length_take]
            omega
          have hkey : w.take (st.temp_wend - t.length) ++ t = w.take st.temp_wend := by
            have h2 := hsfx.2
            rw [hlen, List.take_take, min_eq_left (Nat.sub_le _ _)] at h2
            exact h2
          apply ih
          · show st.temp_wend - t.length ≤ st.wend
            omega
          · exact b
          · show st.n_committed ≤ (st.pieces ++ [(true, t)]).length
            rw [List.length_append]
            omega
          · show w.take (st.temp_wend - t.length)
              ++ (((st.pieces ++ [(true, t)]).map Prod.snd).reverse).flatten = w
            have haux : (((st.pieces ++ [(true, t)]).map Prod.snd).reverse).flatten
                = t ++ ((st.pieces.map Prod.snd).reverse).flatten := by
              simp
            rw [haux, ← List.append_assoc, hkey]
            exact d
          · show w.take st.wend
              ++ ((((st.pieces ++ [(true, t)]).take st.n_committed).map
                    Prod.snd).reverse).flatten = w
            rw [List.take_append_of_le_length c]
            exact e

theorem strip_right_text (ctx : Ctx) (w : List Char) :
    (strip_right ctx w).wend ≤ w.length ∧
    (strip_right ctx w).n_r_stripped ≤ (strip_right ctx w).r_stripped.length ∧
    w.take (strip_right ctx w).wend
      ++ ((((strip_right ctx w).r_stripped.take (strip_right ctx w).n_r_stripped).map
            Prod.snd).reverse).flatten = w := by
  obtain ⟨a, b, c, d, e⟩ := sr_text_inv ctx w (is_utf8_digit ctx w) MAX_STRIP
    ⟨w.length, w.length, 0, [], false, false⟩ (Nat.le_refl _) (Nat.le_refl _)
    (Nat.zero_le _) (by simp) (by simp)
  rw [strip_right]
  split
  · refine ⟨Nat.le_trans a b, Nat.le_refl _, ?_⟩
    show w.take (sr_loop ctx w (is_utf8_digit ctx w) MAX_STRIP
        ⟨w.length, w.length, 0, [], false, false⟩).temp_wend
      ++ ((((sr_loop ctx w (is_utf8_digit ctx w) MAX_STRIP
            ⟨w.length, w.length, 0, [], false, false⟩).pieces.take
            (sr_loop ctx w (is_utf8_digit ctx w) MAX_STRIP
            ⟨w.length, w.length, 0, [], false, false⟩).pieces.length).map
          Prod.snd).reverse).flatten = w
    rw [List.take_length]
    exact d
  · exact ⟨b, c, e⟩

theorem pieces_loop_spec (ctx : Ctx) :
    ∀ (l : List (Bool × List Char)) (s : Sentence), Committed s →
      (∀ t, t ∈ l → t.2 ≠ ([] : List Char)) →
      Committed (l.foldl (fun acc t => issue_sentence_word ctx acc t.2 false) s) ∧
      (l.foldl (fun acc t => issue_sentence_word ctx acc t.2 false) s).word
        = s.word ++ l.map (fun t =>
            (⟨[t.2.take MAX_WORD], some t.2,
              is_utf8_upper ctx (t.2.take MAX_WORD)⟩ : Word)) := by
  intro l
  induction l with
  | nil => intro s hc _; exact ⟨hc, by simp⟩
  | cons t rest ih =>
    intro s hc hne
    obtain ⟨⟨hwf, hts⟩, htc⟩ := hc
    have hspec := issue_sentence_word_spec ctx s t.2 false (by omega) htc
      (hne t (List.mem_cons_self t rest))
    obtain ⟨hcomm, _⟩ := issue_sentence_word_invs ctx s t.2 false ⟨hwf, hts⟩
    rw [List.foldl_cons]
    obtain ⟨ihc, ihw⟩ := ih (issue_sentence_word ctx s t.2 false) hcomm
      (fun x hx => hne x (List.mem_cons_of_mem t hx))
    refine ⟨ihc, ?_⟩
    rw [ihw, hspec]
    simp only [List.map_cons]
    rw [List.append_assoc]
    rfl

/-- C6: when the right strip ends below MAX_STRIP, each stripped-off piece
is committed as its own single-slot, single-alternative token appended
after the group of the remaining core token, in reverse strip order; and
that re-issue order is the original left-to-right surface order, since the
core text followed by the re-issued pieces reconstitutes the token. -/
theorem c6_stripped_pieces_order (ctx : Ctx) (s : Sentence) (w0 : List Char) (q : Bool)
    (hinv : InvS s)
    (hent : ∀ t, t ∈ ctx.rpunc ++ ctx.units → t ≠ ([] : List Char))
    (hnd : ctx.in_dict (w0.take MAX_WORD) = false)
    (hw1 : (strip_left ctx s w0 q).2 ≠ [])
    (hlt : (strip_right ctx (strip_left ctx s w0 q).2).n_r_stripped < MAX_STRIP) :
    Committed (separate_word ctx s w0 q) ∧
    ∃ sMid : Sentence, Committed sMid ∧
      (separate_word ctx s w0 q).word
        = sMid.word ++
          (((strip_right ctx (strip_left ctx s w0 q).2).r_stripped.take
              (strip_right ctx (strip_left ctx s w0 q).2).n_r_stripped).reverse).map
            (fun t => (⟨[t.2.take MAX_WORD], some t.2,
               is_utf8_upper ctx (t.2.take MAX_WORD)⟩ : Word)) ∧
      ((strip_left ctx s w0 q).2.take
          (strip_right ctx (strip_left ctx s w0 q).2).wend) ++
        ((((strip_right ctx (strip_left ctx s w0 q).2).r_stripped.take
            (strip_right ctx (strip_left ctx s w0 q).2).n_r_stripped).reverse).map
          Prod.snd).flatten
        = (strip_left ctx s w0 q).2 := by
  have hinv1 : InvS (strip_left ctx s w0 q).1 :=
    (sl_loop_invs ctx (w0.length + 1) s w0 q hinv).1
  have hlen : ¬((strip_left ctx s w0 q).2.length = 0) := by
    simpa [List.length_eq_zero] using hw1
  rw [separate_word, if_neg (by rw [hnd]; simp)]
  rw [if_neg hlen]
  rw [separate_word_main]
  rw [if_neg (Nat.not_le.mpr hlt)]
  obtain ⟨hbC, hbE⟩ := separate_word_core_invs ctx (strip_left ctx s w0 q).1
    (strip_left ctx s w0 q).2 (strip_right ctx (strip_left ctx s w0 q).2).wend
    (strip_right ctx (strip_left ctx s w0 q).2).n_r_stripped q hinv1
  have hne : ∀ t, t ∈ ((strip_right ctx (strip_left ctx s w0 q).2).r_stripped.take
      (strip_right ctx (strip_left ctx s w0 q).2).n_r_stripped).reverse →
      t.2 ≠ ([] : List Char) := by
    intro t ht
    rw [List.mem_reverse] at ht
    exact hent t.2 ((strip_right_pieces ctx (strip_left ctx s w0 q).2).2.2 t
      (List.mem_of_mem_take ht))
  obtain ⟨hfc, hfw⟩ := pieces_loop_spec ctx
    (((strip_right ctx (strip_left ctx s w0 q).2).r_stripped.take
        (strip_right ctx (strip_left ctx s w0 q).2).n_r_stripped).reverse)
    (separate_word_core ctx (strip_left ctx s w0 q).1 (strip_left ctx s w0 q).2
      (strip_right ctx (strip_left ctx s w0 q).2).wend
      (strip_right ctx (strip_left ctx s w0 q).2).n_r_stripped q)
    hbC hne
  refine ⟨hfc, _, hbC, hfw, ?_⟩
  have htxt := (strip_right_text ctx (strip_left ctx s w0 q).2).2.2
  rw [List.map_reverse]
  exact htxt


theorem c6_stripped_pieces_order_witness :
    Committed (separate_word exCtx6 exEmpty ("hi,".toList) false) ∧
    ∃ sMid : Sentence, Committed sMid ∧
      (separate_word exCtx6 exEmpty ("hi,".toList) false).word
        = sMid.word ++
          (((strip_right exCtx6 (strip_left exCtx6 exEmpty ("hi,".toList) false).2).r_stripped.take
              (strip_right exCtx6 (strip_left exCtx6 exEmpty ("hi,".toList) false).2).n_r_stripped).reverse).map
            (fun t => (⟨[t.2.take MAX_WORD], some t.2,
               is_utf8_upper exCtx6 (t.2.take MAX_WORD)⟩ : Word)) ∧
      ((strip_left exCtx6 exEmpty ("hi,".toList) false).2.take
          (strip_right exCtx6 (strip_left exCtx6 exEmpty ("hi,".toList) false).2).wend) ++
        ((((strip_right exCtx6 (strip_left exCtx6 exEmpty ("hi,".toList) false).2).r_stripped.take
            (strip_right exCtx6 (strip_left exCtx6 exEmpty ("hi,".toList) false).2).n_r_stripped).reverse).map
          Prod.snd).flatten
        = (strip_left exCtx6 exEmpty ("hi,".toList) false).2 :=
  c6_stripped_pieces_order exCtx6 exEmpty ("hi,".toList) false ⟨rfl, rfl⟩
    (by decide) rfl (by decide) (by decide)

/-- C10: separate_sentence reports success exactly when the final length
exceeds the left-wall count or a right wall is defined; with neither wall
defined and an input of separators only (whitespace and quotes), it
returns false although nothing failed. -/
theorem c10_success_iff_walls_or_tokens :
    (∀ (ctx : Ctx) (input : List Char),
      (separate_sentence ctx input).2
        = (decide ((if ctx.left_wall_defined then 1 else 0) <
            (separate_sentence ctx input).1.length) || ctx.right_wall_defined)) ∧
    (∀ (ctx : Ctx) (input : List Char),
      (∀ c, c ∈ input → sepChar ctx c = true) →
      ctx.left_wall_defined = false → ctx.right_wall_defined = false →
      (separate_sentence ctx input).2 = false) := by
  constructor
  · intro ctx input
    rfl
  · intro ctx input hsep hlw hrw
    have hdw : input.dropWhile (sepChar ctx) = [] :=
      List.dropWhile_eq_nil_iff.mpr hsep
    have hss : ss_loop ctx (input.length + 1) ⟨[], [], 0, 0, 0⟩ input
        = ⟨[], [], 0, 0, 0⟩ := by
      rw [ss_loop]
      simp [hdw]
    rw [separate_sentence]
    simp [hlw, hrw, hss]

theorem c10_success_iff_walls_or_tokens_witness :
    (separate_sentence exCtx10 (" \" ".toList)).2 = false :=
  c10_success_iff_walls_or_tokens.2 exCtx10 (" \" ".toList)
    (by decide) rfl rfl

end LGTok
